import Mathlib

/-!
# Verification of the `immutable_map` weight-balanced tree core

The repository is the Rust crate `immutable-map-rs`: a persistent ordered
map (`TreeMap`) and set (`TreeSet`) backed by a weight-balanced binary
search tree, balanced with the algorithm of Hirai and Yamamoto
(parameters delta = 3, gamma = 2), as the crate documentation states
("See https://yoichihirai.com/bst.pdf for the balancing algorithm").

The crate's API surface (rustdoc index) documents the operations:
`new`, `len`, `is_empty`, `iter`, `get`, `contains_key`, `range`,
`insert`, `insert_if_absent`, `update`, `insert_or_update`,
`delete_min`, `delete_max`, `remove`, the set-algebra iterators
(`intersection`, `union`, `difference`, `symmetric_difference`),
comparison (`eq`, `cmp`), `index`, and `from_iter`.

The Rust implementation source of the tree engine is not part of the
corpus (only doc artifacts and a release script are), so every
definition below is modelled from the specification's description of
the algorithms.  Keys are embedded as `ℕ` (the code is generic over any
totally ordered key; a concrete linear order suffices for all claims),
payloads are a type parameter `β`.  The balance-validity proofs are
obtained by transporting the trees along a structure-preserving map
into Mathlib's `Ordnode` (the same Hirai-Yamamoto weight-balanced tree
with delta = 3, ratio = 2) and reusing its `Valid'` machinery.
-/

namespace ImmutableMap

/-- Modelled from the spec: a key/payload entry of the map, the element
type of the sorted sequences produced by iteration.  (`TreeSet` is the
projection with a unit payload.) -/
structure Entry (β : Type) where
  key : ℕ
  val : β
deriving Repr, DecidableEq

/-- Modelled from the spec: the node record of the weight-balanced tree.
A node owns a key, a payload, two children, and a cached subtree size
(count of nodes in the subtree rooted here, including itself). -/
inductive Tree (β : Type) : Type
  | tip : Tree β
  | node (sz : ℕ) (left : Tree β) (key : ℕ) (payload : β) (right : Tree β) : Tree β
deriving Repr, DecidableEq

namespace Tree

variable {β : Type}

/-- Modelled from the spec: size of a subtree, read from the cached field. -/
def size : Tree β → ℕ
  | tip => 0
  | node sz _ _ _ _ => sz

/-- Modelled from the spec: the balance ratio (canonically 3): neither
child's size may exceed `balance_ratio` times the other's. -/
def balance_ratio : ℕ := 3

/-- Modelled from the spec: the single-versus-double rotation threshold
of the published weight-balanced-tree construction (Hirai-Yamamoto
gamma = 2): a single rotation is chosen when the heavy child's inner
child is lighter than `rotate_ratio` times its outer child. -/
def rotate_ratio : ℕ := 2

/-- Modelled from the spec: construct a node recomputing the size from
the children ("no size is ever trusted stale"). -/
def mk_node (l : Tree β) (k : ℕ) (v : β) (r : Tree β) : Tree β :=
  node (size l + size r + 1) l k v r

/-- Modelled from the spec: standard single left rotation, recomputing
the two affected sizes bottom-up. -/
def rotate_left (l : Tree β) (k : ℕ) (v : β) : Tree β → Tree β
  | node _ m mk mv r => mk_node (mk_node l k v m) mk mv r
  | tip => mk_node l k v tip

/-- Modelled from the spec: double left rotation — a rotation of the
heavy right child followed by a rotation at the node. -/
def rotate_left_double (l : Tree β) (k : ℕ) (v : β) : Tree β → Tree β
  | node _ (node _ ml mk mv mr) yk yv r =>
      mk_node (mk_node l k v ml) mk mv (mk_node mr yk yv r)
  | node _ tip yk yv r => mk_node (mk_node l k v tip) yk yv r
  | tip => mk_node l k v tip

/-- Modelled from the spec: standard single right rotation. -/
def rotate_right : Tree β → ℕ → β → Tree β → Tree β
  | node _ l mk mv m, k, v, r => mk_node l mk mv (mk_node m k v r)
  | tip, k, v, r => mk_node tip k v r

/-- Modelled from the spec: double right rotation. -/
def rotate_right_double : Tree β → ℕ → β → Tree β → Tree β
  | node _ l yk yv (node _ ml mk mv mr), k, v, r =>
      mk_node (mk_node l yk yv ml) mk mv (mk_node mr k v r)
  | node _ l yk yv tip, k, v, r => mk_node l yk yv (mk_node tip k v r)
  | tip, k, v, r => mk_node tip k v r

/-- Modelled from the spec: `rebalance(left, key, payload, right)` —
given a candidate node description that may violate the balance
invariant only at the root of this call, return a correctly balanced
node.  Compare `size left` and `size right`; if one side exceeds
`balance_ratio` times the other, choose a single or double rotation
based on the internal shape of the heavier child. -/
def rebalance (l : Tree β) (k : ℕ) (v : β) (r : Tree β) : Tree β :=
  if size l + size r ≤ 1 then mk_node l k v r
  else if size r > balance_ratio * size l then
    match r with
    | node _ rl _ _ rr =>
        if size rl < rotate_ratio * size rr then rotate_left l k v r
        else rotate_left_double l k v r
    | tip => mk_node l k v r
  else if size l > balance_ratio * size r then
    match l with
    | node _ ll _ _ lr =>
        if size lr < rotate_ratio * size ll then rotate_right l k v r
        else rotate_right_double l k v r
    | tip => mk_node l k v r
  else mk_node l k v r

/-- Modelled from the spec: `new` — the empty tree. -/
def new : Tree β := tip

/-- Modelled from the spec: number of elements in the map. -/
def len (t : Tree β) : ℕ := size t

/-- Modelled from the spec: whether the map contains no elements. -/
def is_empty (t : Tree β) : Bool := len t == 0

/-- Modelled from the spec: `get(key)` — O(log n) descent comparing
against node keys; returns the stored payload or absence. -/
def get : Tree β → ℕ → Option β
  | tip, _ => none
  | node _ l k v r, q =>
    match compare q k with
    | .lt => get l q
    | .eq => some v
    | .gt => get r q

/-- Modelled from the spec: `contains_key(key)`. -/
def contains_key (t : Tree β) (q : ℕ) : Bool := (get t q).isSome

/-- Modelled from the spec: the shared descent of `insert` and
`insert_or_update`: descend to the place of `k`; when the key is
already present replace the payload by `f old`, otherwise splice in a
new leaf holding `v`; every ancestor along the path is rebuilt and
rebalanced. -/
def ins (k : ℕ) (v : β) (f : β → β) : Tree β → Tree β
  | tip => node 1 tip k v tip
  | node sz l k' v' r =>
    match compare k k' with
    | .lt => rebalance (ins k v f l) k' v' r
    | .eq => node sz l k (f v') r
    | .gt => rebalance l k' v' (ins k v f r)

/-- Modelled from the spec: `insert(key, payload)` — if the key already
exists the new node replaces the payload (old payload discarded),
otherwise a new leaf is spliced in. -/
def insert (t : Tree β) (k : ℕ) (v : β) : Tree β := ins k v (fun _ => v) t

/-- Modelled from the spec: `insert_or_update(key, default_payload, f)`
— if the key exists apply `f old_payload`, otherwise insert
`default_payload`.  Always succeeds. -/
def insert_or_update (t : Tree β) (k : ℕ) (v : β) (f : β → β) : Tree β :=
  ins k v f t

/-- Modelled from the spec: `insert_if_absent(key, payload)` — as
`insert` but signals failure (`none`) if the key is already present. -/
def insert_if_absent : Tree β → ℕ → β → Option (Tree β)
  | tip, k, v => some (node 1 tip k v tip)
  | node _ l k' v' r, k, v =>
    match compare k k' with
    | .lt => (insert_if_absent l k v).map fun l' => rebalance l' k' v' r
    | .eq => none
    | .gt => (insert_if_absent r k v).map fun r' => rebalance l k' v' r'

/-- Modelled from the spec: `update(key, f)` — if the key exists,
produce a new tree where the payload is replaced by `f(old_payload)`;
if absent, signal failure.  The shape and all sizes are unchanged. -/
def update : Tree β → ℕ → (β → β) → Option (Tree β)
  | tip, _, _ => none
  | node sz l k' v' r, k, f =>
    match compare k k' with
    | .lt => (update l k f).map fun l' => node sz l' k' v' r
    | .eq => some (node sz l k' (f v') r)
    | .gt => (update r k f).map fun r' => node sz l k' v' r'

/-- Modelled from the spec: `delete_min` — descend to the leftmost
node, remove it, rebalance all ancestors, and return the new tree with
the removed key and payload; `none` on the empty tree. -/
def delete_min : Tree β → Option (Tree β × ℕ × β)
  | tip => none
  | node _ l k v r =>
    match delete_min l with
    | none => some (r, k, v)
    | some (l', mk, mv) => some (rebalance l' k v r, mk, mv)

/-- Modelled from the spec: `delete_max` — symmetric to `delete_min`. -/
def delete_max : Tree β → Option (Tree β × ℕ × β)
  | tip => none
  | node _ l k v r =>
    match delete_max r with
    | none => some (l, k, v)
    | some (r', mk, mv) => some (rebalance l k v r', mk, mv)

/-- Modelled from the spec: removal of a located node: with both
children present, splice in the in-order successor (apply `delete_min`
to the right subtree and promote its result); else promote the single
child or the absent marker. -/
def remove_root (l : Tree β) (v' : β) (r : Tree β) : Tree β × β :=
  match l, r with
  | tip, _ => (r, v')
  | node ls ll lk lv lr, tip => (node ls ll lk lv lr, v')
  | node ls ll lk lv lr, node rs rl rk rv rr =>
    match delete_min (node rs rl rk rv rr) with
    | some (r', sk, sv) => (rebalance (node ls ll lk lv lr) sk sv r', v')
    | none => (node ls ll lk lv lr, v')

/-- Modelled from the spec: `remove(key)` — locate the node; if found,
remove it by standard BST deletion (`remove_root`), rebalancing
ancestors, and return the new tree plus the removed payload; `none` if
the key was not found. -/
def remove : Tree β → ℕ → Option (Tree β × β)
  | tip, _ => none
  | node _ l k' v' r, k =>
    match compare k k' with
    | .lt =>
      match remove l k with
      | none => none
      | some (l', w) => some (rebalance l' k' v' r, w)
    | .gt =>
      match remove r k with
      | none => none
      | some (r', w) => some (rebalance l k' v' r', w)
    | .eq => some (remove_root l v' r)

/-- Modelled from the spec: forward in-order iteration — the sorted
sequence of entries of the tree. -/
def toList : Tree β → List (Entry β)
  | tip => []
  | node _ l k v r => toList l ++ ⟨k, v⟩ :: toList r

/-- Modelled from the spec: the ascending key sequence (set iteration). -/
def keys (t : Tree β) : List ℕ := (toList t).map Entry.key

/-- Modelled from the spec: bulk construction from a sequence of
key/payload pairs, equivalent to repeated `insert` (later duplicate
keys overwrite earlier ones). -/
def from_iter (xs : List (Entry β)) : Tree β :=
  xs.foldl (fun t e => insert t e.key e.val) new

/-- Modelled from the spec scenario: insert keys 5,3,8,1,4,7,9 one at a
time into an empty map with payload = key * 10. -/
def scenario_map : Tree ℕ :=
  insert (insert (insert (insert (insert (insert (insert new 5 50) 3 30) 8 80)
    1 10) 4 40) 7 70) 9 90

end Tree

/-- Modelled from the spec: an endpoint of a range of keys — unbounded,
inclusive, or exclusive. -/
inductive Bound (α : Type) : Type
  | Unbounded : Bound α
  | Included (x : α) : Bound α
  | Excluded (x : α) : Bound α
deriving Repr, DecidableEq

namespace Tree

variable {β : Type}

/-- Modelled from the spec: whether a key satisfies the lower bound of
a range (`Unbounded` acts as negative infinity). -/
def lo_ok : Bound ℕ → ℕ → Bool
  | .Unbounded, _ => true
  | .Included b, k => b ≤ k
  | .Excluded b, k => b < k

/-- Modelled from the spec: whether a key satisfies the upper bound of
a range (`Unbounded` acts as positive infinity). -/
def hi_ok : Bound ℕ → ℕ → Bool
  | .Unbounded, _ => true
  | .Included b, k => k ≤ b
  | .Excluded b, k => k < b

/-- Modelled from the spec: `range(min, max)` — the sorted sub-sequence
of entries whose keys satisfy both bounds; subtrees entirely out of
range are skipped without visiting their contents. -/
def range : Tree β → Bound ℕ → Bound ℕ → List (Entry β)
  | tip, _, _ => []
  | node _ l k v r, lo, hi =>
    if lo_ok lo k then
      if hi_ok hi k then range l lo hi ++ ⟨k, v⟩ :: range r lo hi
      else range l lo hi
    else range r lo hi

end Tree

/-! ### Set-algebra iterators

The set type delegates every operation to the map core with a unit
payload; the set-algebra iterators are lazy merges of two ascending key
sequences.  They are modelled here as functions on the ascending key
lists produced by iteration. -/

/-- Modelled from the spec: the intersection merge — advance the lesser
side; on equality, yield the key and advance both. -/
def merge_inter : List ℕ → List ℕ → List ℕ
  | [], _ => []
  | _ :: _, [] => []
  | a :: as, b :: bs =>
    if a < b then merge_inter as (b :: bs)
    else if b < a then merge_inter (a :: as) bs
    else a :: merge_inter as bs
termination_by xs ys => xs.length + ys.length
decreasing_by all_goals simp_arith

/-- Modelled from the spec: the union merge — always yield the lesser
key (or either, on equality, advancing both to avoid duplicates). -/
def merge_union : List ℕ → List ℕ → List ℕ
  | [], ys => ys
  | a :: as, [] => a :: as
  | a :: as, b :: bs =>
    if a < b then a :: merge_union as (b :: bs)
    else if b < a then b :: merge_union (a :: as) bs
    else a :: merge_union as bs
termination_by xs ys => xs.length + ys.length
decreasing_by all_goals simp_arith

/-- Modelled from the spec: the difference merge (self − other) — yield
keys present in self but absent from other; on equality, advance both
without yielding; when self is ahead, advance other. -/
def merge_diff : List ℕ → List ℕ → List ℕ
  | [], _ => []
  | a :: as, [] => a :: as
  | a :: as, b :: bs =>
    if a < b then a :: merge_diff as (b :: bs)
    else if b < a then merge_diff (a :: as) bs
    else merge_diff as bs
termination_by xs ys => xs.length + ys.length
decreasing_by all_goals simp_arith

/-- Modelled from the spec: the symmetric-difference merge — yield keys
present in exactly one side; on equality, advance both without
yielding. -/
def merge_symm_diff : List ℕ → List ℕ → List ℕ
  | [], ys => ys
  | a :: as, [] => a :: as
  | a :: as, b :: bs =>
    if a < b then a :: merge_symm_diff as (b :: bs)
    else if b < a then b :: merge_symm_diff (a :: as) bs
    else merge_symm_diff as bs
termination_by xs ys => xs.length + ys.length
decreasing_by all_goals simp_arith

namespace Tree

variable {β : Type}

/-- Modelled from the spec: `TreeSet::intersection`, as the ascending
key sequence the lazy iterator yields. -/
def intersection (a b : Tree β) : List ℕ := merge_inter (keys a) (keys b)

/-- Modelled from the spec: `TreeSet::union`. -/
def union (a b : Tree β) : List ℕ := merge_union (keys a) (keys b)

/-- Modelled from the spec: `TreeSet::difference` (self − other). -/
def difference (a b : Tree β) : List ℕ := merge_diff (keys a) (keys b)

/-- Modelled from the spec: `TreeSet::symmetric_difference`. -/
def symmetric_difference (a b : Tree β) : List ℕ :=
  merge_symm_diff (keys a) (keys b)

end Tree

/-! ### Equality and ordering -/

/-- Modelled from the spec: elementwise equality of the two sorted
iteration sequences (`Iterator::eq`). -/
def seq_eq {β : Type} [DecidableEq β] : List (Entry β) → List (Entry β) → Bool
  | [], [] => true
  | e₁ :: xs, e₂ :: ys => e₁.key == e₂.key && decide (e₁.val = e₂.val) && seq_eq xs ys
  | _, _ => false

/-- Modelled from the spec: lexicographic comparison of the two sorted
iteration sequences (`Iterator::cmp`), entries compared by key and then
payload. -/
def seq_cmp {β : Type} (cmpv : β → β → Ordering) :
    List (Entry β) → List (Entry β) → Ordering
  | [], [] => .eq
  | [], _ :: _ => .lt
  | _ :: _, [] => .gt
  | e₁ :: xs, e₂ :: ys =>
    match compare e₁.key e₂.key with
    | .eq =>
      match cmpv e₁.val e₂.val with
      | .eq => seq_cmp cmpv xs ys
      | o => o
    | o => o

namespace Tree

/-- Modelled from the spec: structural equality of two trees — defined
purely by their sorted sequences, never by internal shape. -/
def eq {β : Type} [DecidableEq β] (t₁ t₂ : Tree β) : Bool :=
  seq_eq (toList t₁) (toList t₂)

/-- Modelled from the spec: total ordering of two trees — lexicographic
comparison of their sorted sequences. -/
def cmp {β : Type} [LinearOrder β] (t₁ t₂ : Tree β) : Ordering :=
  seq_cmp compare (toList t₁) (toList t₂)

/-- Modelled from the spec: `TreeMap::index` (the `map[key]` operator)
— returns the stored value directly when the key is present; indexing
with an absent key panics, modelled as `Except.error`. -/
def index {β : Type} (t : Tree β) (k : ℕ) : Except Unit β :=
  match get t k with
  | some v => .ok v
  | none => .error ()

/-! ### The structural invariants (spec §3 and §8) -/

variable {β : Type}

/-- Modelled from the spec: a key sequence is strictly increasing. -/
def strictly_increasing : List ℕ → Bool
  | [] => true
  | [_] => true
  | a :: b :: rest => a < b && strictly_increasing (b :: rest)

/-- Modelled from the spec, BST invariant: an in-order traversal yields
strictly increasing keys. -/
def bst_ok (t : Tree β) : Bool := strictly_increasing (keys t)

/-- Modelled from the spec, size invariant: for all nodes,
`size(node) = size(left) + size(right) + 1`. -/
def size_ok : Tree β → Bool
  | tip => true
  | node sz l _ _ r => sz == size l + size r + 1 && size_ok l && size_ok r

/-- Modelled from the spec, balance invariant: for all nodes, neither
child's size exceeds `balance_ratio` times the other's, unless both
subtrees have size at most 1. -/
def balance_ok : Tree β → Bool
  | tip => true
  | node _ l _ _ r =>
    ((size l ≤ 1 && size r ≤ 1) ||
      (size l ≤ balance_ratio * size r && size r ≤ balance_ratio * size l)) &&
    balance_ok l && balance_ok r

/-- The conjunction of the three structural invariants. -/
def WF (t : Tree β) : Prop := bst_ok t = true ∧ size_ok t = true ∧ balance_ok t = true

instance : DecidablePred (WF (β := β)) := fun _ =>
  inferInstanceAs (Decidable (_ ∧ _ ∧ _))

/-- The trees reachable from the empty tree by any sequence of core
operations. -/
inductive Reachable : Tree β → Prop
  | new : Reachable new
  | insert {t} (k : ℕ) (v : β) : Reachable t → Reachable (insert t k v)
  | insert_if_absent {t t'} (k : ℕ) (v : β) :
      Reachable t → insert_if_absent t k v = some t' → Reachable t'
  | update {t t'} (k : ℕ) (f : β → β) :
      Reachable t → update t k f = some t' → Reachable t'
  | insert_or_update {t} (k : ℕ) (v : β) (f : β → β) :
      Reachable t → Reachable (insert_or_update t k v f)
  | remove {t t' v} (k : ℕ) : Reachable t → remove t k = some (t', v) → Reachable t'
  | delete_min {t t' k v} : Reachable t → delete_min t = some (t', k, v) → Reachable t'
  | delete_max {t t' k v} : Reachable t → delete_max t = some (t', k, v) → Reachable t'
  | from_iter (xs : List (Entry β)) : Reachable (from_iter xs)

end Tree

/-! ### Bridge to Mathlib's `Ordnode`

`Ordnode` is the same Hirai-Yamamoto weight-balanced tree (delta = 3,
ratio = 2).  We map our trees into `Ordnode (Entry β)` ordered by key
alone and reuse Mathlib's `Valid'` machinery for the balance proofs. -/

/-- Entries ordered by key alone (the map never compares payloads while
searching or rebalancing). -/
instance {β : Type} : Preorder (Entry β) where
  le a b := a.key ≤ b.key
  le_refl _ := Nat.le_refl _
  le_trans _ _ _ h₁ h₂ := Nat.le_trans h₁ h₂

namespace Tree

variable {β : Type}

/-- The structure-preserving map into Mathlib's `Ordnode`. -/
def toOrd : Tree β → Ordnode (Entry β)
  | tip => Ordnode.nil
  | node sz l k v r => Ordnode.node sz (toOrd l) ⟨k, v⟩ (toOrd r)

end Tree

/-- Specification-side description of one `insert` on the sorted
sequence: splice the new entry in at its key position, or replace the
payload (by `f old`) when the key is already present. -/
def list_insert {β : Type} (k : ℕ) (v : β) (f : β → β) :
    List (Entry β) → List (Entry β)
  | [] => [⟨k, v⟩]
  | e :: xs =>
    if k < e.key then ⟨k, v⟩ :: e :: xs
    else if k = e.key then ⟨k, f e.val⟩ :: xs
    else e :: list_insert k v f xs

/-- Specification-side lexicographic order on entries: by key, then by
payload. -/
def entry_lex {β : Type} [LT β] (e₁ e₂ : Entry β) : Prop :=
  e₁.key < e₂.key ∨ (e₁.key = e₂.key ∧ e₁.val < e₂.val)

/-! ## Basic lemmas about the embedding -/

namespace Tree

variable {β : Type}

theorem entry_le_iff {a b : Entry β} : a ≤ b ↔ a.key ≤ b.key := Iff.rfl

theorem entry_lt_iff {a b : Entry β} : a < b ↔ a.key < b.key := by
  rw [lt_iff_le_not_le, Nat.lt_iff_le_not_le]; exact Iff.rfl

@[simp] theorem size_toOrd : ∀ t : Tree β, (toOrd t).size = size t
  | tip => rfl
  | node _ _ _ _ _ => rfl

@[simp] theorem toList_toOrd : ∀ t : Tree β, (toOrd t).toList = toList t
  | tip => rfl
  | node sz l k v r => by
    rw [toOrd, Ordnode.toList_node, toList_toOrd l, toList_toOrd r]; rfl

theorem toOrd_mk_node (l : Tree β) (k : ℕ) (v : β) (r : Tree β) :
    toOrd (mk_node l k v r) = Ordnode.node' (toOrd l) ⟨k, v⟩ (toOrd r) := by
  simp [mk_node, toOrd, Ordnode.node']

theorem toOrd_rebalance (l : Tree β) (k : ℕ) (v : β) (r : Tree β) :
    toOrd (rebalance l k v r) = Ordnode.balance' (toOrd l) ⟨k, v⟩ (toOrd r) := by
  have hd : Ordnode.delta = balance_ratio := rfl
  have hg : Ordnode.ratio = rotate_ratio := rfl
  rw [rebalance.eq_def, Ordnode.balance', hd]
  simp only [size_toOrd]
  split_ifs with h₁ h₂ h₃
  · exact toOrd_mk_node ..
  · cases r with
    | tip => simp [Ordnode.rotateL_nil, toOrd_mk_node, toOrd, size]
    | node rs rl rk rv rr =>
      show toOrd (if size rl < rotate_ratio * size rr then _ else _) = _
      rw [show toOrd (node rs rl rk rv rr) = Ordnode.node rs (toOrd rl) ⟨rk, rv⟩ (toOrd rr) from rfl,
        Ordnode.rotateL_node, hg]
      simp only [size_toOrd]
      split_ifs with h
      · simp [rotate_left, Ordnode.node3L, toOrd_mk_node, toOrd, mk_node, size,
          Ordnode.node', size_toOrd]
      · cases rl <;>
          simp [rotate_left_double, Ordnode.node4L, Ordnode.node3L, toOrd_mk_node, toOrd,
            mk_node, size, Ordnode.node', size_toOrd]
  · cases l with
    | tip => simp [Ordnode.rotateR_nil, toOrd_mk_node, toOrd, size]
    | node ls ll lk lv lr =>
      show toOrd (if size lr < rotate_ratio * size ll then _ else _) = _
      rw [show toOrd (node ls ll lk lv lr) = Ordnode.node ls (toOrd ll) ⟨lk, lv⟩ (toOrd lr) from rfl,
        Ordnode.rotateR_node, hg]
      simp only [size_toOrd]
      split_ifs with h
      · simp [rotate_right, Ordnode.node3R, toOrd_mk_node, toOrd, mk_node, size,
          Ordnode.node', size_toOrd]
      · cases lr <;>
          simp [rotate_right_double, Ordnode.node4R, Ordnode.node3R, toOrd_mk_node, toOrd,
            mk_node, size, Ordnode.node', size_toOrd]
  · exact toOrd_mk_node ..

theorem toList_mk_node (l : Tree β) (k : ℕ) (v : β) (r : Tree β) :
    toList (mk_node l k v r) = toList l ++ ⟨k, v⟩ :: toList r := rfl

/-- Rotations preserve the in-order sequence: `rebalance` yields the
same sorted sequence as plain node construction. -/
theorem toList_rebalance (l : Tree β) (k : ℕ) (v : β) (r : Tree β) :
    toList (rebalance l k v r) = toList l ++ ⟨k, v⟩ :: toList r := by
  rw [rebalance.eq_def]
  split_ifs with h₁ h₂ h₃
  · rfl
  · cases r with
    | tip => rfl
    | node rs rl rk rv rr =>
      show toList (if size rl < rotate_ratio * size rr then _ else _) = _
      split_ifs with h
      · simp [rotate_left, toList, mk_node]
      · cases rl <;> simp [rotate_left_double, toList, mk_node]
  · cases l with
    | tip => rfl
    | node ls ll lk lv lr =>
      show toList (if size lr < rotate_ratio * size ll then _ else _) = _
      split_ifs with h
      · simp [rotate_right, toList, mk_node]
      · cases lr <;> simp [rotate_right_double, toList, mk_node]
  · rfl

/-! ## The invariants match `Ordnode`'s validity predicate -/

theorem size_ok_iff : ∀ t : Tree β, size_ok t = true ↔ (toOrd t).Sized
  | tip => by simp [size_ok, toOrd, Ordnode.Sized]
  | node sz l k v r => by
    rw [show toOrd (node sz l k v r) = Ordnode.node sz (toOrd l) ⟨k, v⟩ (toOrd r) from rfl]
    simp [size_ok, Ordnode.Sized, size_ok_iff l, size_ok_iff r, size_toOrd,
      Bool.and_eq_true, beq_iff_eq, and_assoc]

theorem balance_ok_iff : ∀ t : Tree β, balance_ok t = true ↔ (toOrd t).Balanced
  | tip => by simp [balance_ok, toOrd, Ordnode.Balanced]
  | node sz l k v r => by
    rw [show toOrd (node sz l k v r) = Ordnode.node sz (toOrd l) ⟨k, v⟩ (toOrd r) from rfl]
    simp only [balance_ok, Ordnode.Balanced, Bool.and_eq_true, Bool.or_eq_true,
      decide_eq_true_eq, balance_ok_iff l, balance_ok_iff r, size_toOrd,
      Ordnode.BalancedSz, Ordnode.delta, balance_ratio, and_assoc]
    constructor
    · rintro ⟨h₁, h₂, h₃⟩
      exact ⟨by omega, h₂, h₃⟩
    · rintro ⟨h₁, h₂, h₃⟩
      exact ⟨by omega, h₂, h₃⟩

theorem all_entry_iff {P : Entry β → Prop} {t : Tree β} :
    Ordnode.All P (toOrd t) ↔ ∀ e ∈ toList t, P e := by
  rw [Ordnode.all_iff_forall]
  simp [Ordnode.emem_iff_mem_toList, toList_toOrd]

/-- Keys below an upper bound: every entry of a tree bounded above by
`⟨k, v⟩` has key less than `k`. -/
theorem mem_keys_lt {t : Tree β} {o₁ : WithBot (Entry β)} {k : ℕ} {v : β}
    (h : (toOrd t).Bounded o₁ (some ⟨k, v⟩)) : ∀ e ∈ toList t, e.key < k := by
  have := h.mem_lt
  rw [all_entry_iff] at this
  intro e he
  exact entry_lt_iff.1 (this e he)

/-- Keys above a lower bound. -/
theorem mem_keys_gt {t : Tree β} {o₂ : WithTop (Entry β)} {k : ℕ} {v : β}
    (h : (toOrd t).Bounded (some ⟨k, v⟩) o₂) : ∀ e ∈ toList t, k < e.key := by
  have := h.mem_gt
  rw [all_entry_iff] at this
  intro e he
  exact entry_lt_iff.1 (this e he)

theorem mem_keys_of_mem {t : Tree β} {e : Entry β} (h : e ∈ toList t) :
    e.key ∈ keys t := List.mem_map_of_mem Entry.key h

theorem bounded_of_pairwise :
    ∀ t : Tree β, List.Pairwise (· < ·) (keys t) → (toOrd t).Bounded ⊥ ⊤
  | tip, _ => trivial
  | node sz l k v r, h => by
    rw [keys, toList] at h
    simp only [List.map_append, List.map_cons, List.pairwise_append,
      List.pairwise_cons] at h
    obtain ⟨hl, ⟨hk, hr⟩, hcross⟩ := h
    refine ⟨?_, ?_⟩
    · refine (bounded_of_pairwise l hl).of_lt trivial ?_
      rw [all_entry_iff]
      intro e he
      exact entry_lt_iff.2 (hcross e.key (mem_keys_of_mem he) k (List.mem_cons_self _ _))
    · refine (bounded_of_pairwise r hr).of_gt trivial ?_
      rw [all_entry_iff]
      intro e he
      exact entry_lt_iff.2 (hk e.key (mem_keys_of_mem he))

theorem pairwise_of_bounded :
    ∀ (t : Tree β) {o₁ o₂}, (toOrd t).Bounded o₁ o₂ → List.Pairwise (· < ·) (keys t)
  | tip, _, _, _ => List.Pairwise.nil
  | node sz l k v r, o₁, o₂, h => by
    obtain ⟨hl, hr⟩ := h
    have pl := pairwise_of_bounded l hl
    have pr := pairwise_of_bounded r hr
    have lk := mem_keys_lt hl
    have rk := mem_keys_gt hr
    rw [keys, toList]
    simp only [List.map_append, List.map_cons, List.pairwise_append, List.pairwise_cons]
    refine ⟨pl, ⟨?_, pr⟩, ?_⟩
    · intro a ha
      obtain ⟨e, he, rfl⟩ := List.mem_map.1 ha
      exact rk e he
    · intro a ha b hb
      obtain ⟨e, he, rfl⟩ := List.mem_map.1 ha
      rcases List.mem_cons.1 hb with rfl | hb
      · exact lk e he
      · obtain ⟨e', he', rfl⟩ := List.mem_map.1 hb
        exact (lk e he).trans (rk e' he')

theorem strictly_increasing_iff :
    ∀ xs : List ℕ, strictly_increasing xs = true ↔ List.Chain' (· < ·) xs
  | [] => by simp [strictly_increasing]
  | [a] => by simp [strictly_increasing]
  | a :: b :: rest => by
    rw [strictly_increasing, Bool.and_eq_true, decide_eq_true_eq,
      strictly_increasing_iff (b :: rest)]
    constructor
    · rintro ⟨h₁, h₂⟩
      exact List.Chain'.cons h₁ h₂
    · intro h
      exact ⟨List.rel_of_chain_cons h, h.tail⟩

theorem bst_ok_iff (t : Tree β) : bst_ok t = true ↔ (toOrd t).Bounded ⊥ ⊤ := by
  rw [bst_ok, strictly_increasing_iff, List.chain'_iff_pairwise]
  exact ⟨bounded_of_pairwise t, pairwise_of_bounded t⟩

/-- The three structural invariants are exactly `Ordnode` validity of
the transported tree. -/
theorem WF_iff_valid (t : Tree β) : WF t ↔ (toOrd t).Valid := by
  rw [WF, bst_ok_iff, size_ok_iff, balance_ok_iff]
  exact ⟨fun ⟨a, b, c⟩ => ⟨a, b, c⟩, fun ⟨a, b, c⟩ => ⟨a, b, c⟩⟩

theorem toOrd_node (sz : ℕ) (l : Tree β) (k : ℕ) (v : β) (r : Tree β) :
    toOrd (node sz l k v r) = Ordnode.node sz (toOrd l) ⟨k, v⟩ (toOrd r) := rfl

theorem size_node_eq (sz : ℕ) (l : Tree β) (k : ℕ) (v : β) (r : Tree β) :
    size (node sz l k v r) = sz := rfl

theorem size_rebalance {l r : Tree β} (k : ℕ) (v : β)
    (hl : (toOrd l).Sized) (hr : (toOrd r).Sized) :
    size (rebalance l k v r) = size l + size r + 1 := by
  rw [← size_toOrd, toOrd_rebalance, Ordnode.size_balance' hl hr, size_toOrd, size_toOrd]

/-! ## Validity and size behaviour of the core operations -/

/-- Validity of the insertion descent: inserting a key strictly inside
the bounds preserves validity and raises the size by at most one. -/
theorem ins_aux (k : ℕ) (v : β) (f : β → β) :
    ∀ {t : Tree β} {o₁ : WithBot (Entry β)} {o₂ : WithTop (Entry β)},
      Ordnode.Valid' o₁ (toOrd t) o₂ →
      Ordnode.Bounded Ordnode.nil o₁ (some ⟨k, v⟩) →
      Ordnode.Bounded Ordnode.nil (some ⟨k, v⟩) o₂ →
      Ordnode.Valid' o₁ (toOrd (ins k v f t)) o₂ ∧
        Ordnode.Raised (size t) (size (ins k v f t))
  | tip, o₁, o₂, _, bl, br => ⟨Ordnode.valid'_singleton bl br, Or.inr rfl⟩
  | node sz l k' v' r, o₁, o₂, h, bl, br => by
    rw [toOrd_node] at h
    rw [ins]
    cases hc : compare k k' with
    | lt =>
      have hkk' : k < k' := Nat.compare_eq_lt.1 hc
      obtain ⟨vl, rl⟩ :=
        ins_aux k v f h.left bl (show ((⟨k, v⟩ : Entry β) < ⟨k', v'⟩) from entry_lt_iff.2 hkk')
      constructor
      · rw [toOrd_rebalance]
        refine vl.balance' h.right
          ⟨(toOrd l).size, (toOrd r).size, h.bal.1, Or.inl ⟨?_, rfl⟩⟩
        simp only [size_toOrd]
        exact rl.dist_le'
      · rw [size_rebalance k' v' vl.sz h.right.sz, size_node_eq]
        have hsz := h.sz.1
        simp only [size_toOrd] at hsz
        rw [Ordnode.raised_iff] at rl ⊢
        omega
    | eq =>
      have hkk' : k = k' := Nat.compare_eq_eq.1 hc
      subst hkk'
      refine ⟨⟨⟨h.ord.1.mono_right ?_, h.ord.2.mono_left ?_⟩,
        ⟨h.sz.1, h.sz.2.1, h.sz.2.2⟩, ⟨h.bal.1, h.bal.2.1, h.bal.2.2⟩⟩, Or.inl rfl⟩
      · exact entry_le_iff.2 (Nat.le_refl _)
      · exact entry_le_iff.2 (Nat.le_refl _)
    | gt =>
      have hkk' : k' < k := Nat.compare_eq_gt.1 hc
      obtain ⟨vr, rr⟩ :=
        ins_aux k v f h.right (show ((⟨k', v'⟩ : Entry β) < ⟨k, v⟩) from entry_lt_iff.2 hkk') br
      constructor
      · rw [toOrd_rebalance]
        refine h.left.balance' vr
          ⟨(toOrd l).size, (toOrd r).size, h.bal.1, Or.inr ⟨?_, rfl⟩⟩
        simp only [size_toOrd]
        exact rr.dist_le'
      · rw [size_rebalance k' v' h.left.sz vr.sz, size_node_eq]
        have hsz := h.sz.1
        simp only [size_toOrd] at hsz
        rw [Ordnode.raised_iff] at rr ⊢
        omega

/-- `delete_min` on a non-empty tree: returns the least entry, the
remaining tree is valid with the removed entry as a strict lower bound,
the size drops by one, and the sorted sequence loses its head. -/
theorem delete_min_aux :
    ∀ {t : Tree β} {o₁ : WithBot (Entry β)} {o₂ : WithTop (Entry β)},
      Ordnode.Valid' o₁ (toOrd t) o₂ → t ≠ tip →
      ∃ t' mk mv, delete_min t = some (t', mk, mv) ∧
        Ordnode.Bounded Ordnode.nil o₁ (some (⟨mk, mv⟩ : Entry β)) ∧
        Ordnode.Valid' (some (⟨mk, mv⟩ : Entry β)) (toOrd t') o₂ ∧
        size t = size t' + 1 ∧ toList t = ⟨mk, mv⟩ :: toList t'
  | tip, _, _, _, hne => absurd rfl hne
  | node sz l k v r, o₁, o₂, h, _ => by
    rw [toOrd_node] at h
    cases l with
    | tip =>
      refine ⟨r, k, v, rfl, h.ord.1, h.right, ?_, rfl⟩
      have hsz := h.sz.1
      simp only [size_toOrd] at hsz
      simpa [size_node_eq, size] using hsz
    | node ls ll lk lv lr =>
      obtain ⟨l', mk, mv, heq, hb, hv, hs, hl⟩ := delete_min_aux h.left (by simp)
      refine ⟨rebalance l' k v r, mk, mv, ?_, hb, ?_, ?_, ?_⟩
      · rw [delete_min, heq]
      · rw [toOrd_rebalance]
        refine hv.balance' h.right
          ⟨(toOrd (node ls ll lk lv lr)).size, (toOrd r).size, h.bal.1, Or.inl ⟨?_, rfl⟩⟩
        simp only [size_toOrd]
        simp [Nat.dist]
        omega
      · rw [size_rebalance k v hv.sz h.right.sz, size_node_eq]
        have hsz := h.sz.1
        simp only [size_toOrd] at hsz
        omega
      · rw [toList, hl, toList_rebalance]
        simp

/-- `delete_max` on a non-empty tree, symmetric to `delete_min`. -/
theorem delete_max_aux :
    ∀ {t : Tree β} {o₁ : WithBot (Entry β)} {o₂ : WithTop (Entry β)},
      Ordnode.Valid' o₁ (toOrd t) o₂ → t ≠ tip →
      ∃ t' mk mv, delete_max t = some (t', mk, mv) ∧
        Ordnode.Bounded Ordnode.nil (some (⟨mk, mv⟩ : Entry β)) o₂ ∧
        Ordnode.Valid' o₁ (toOrd t') (some (⟨mk, mv⟩ : Entry β)) ∧
        size t = size t' + 1 ∧ toList t = toList t' ++ [⟨mk, mv⟩]
  | tip, _, _, _, hne => absurd rfl hne
  | node sz l k v r, o₁, o₂, h, _ => by
    rw [toOrd_node] at h
    cases r with
    | tip =>
      refine ⟨l, k, v, rfl, h.ord.2, h.left, ?_, rfl⟩
      have hsz := h.sz.1
      simp only [size_toOrd] at hsz
      simpa [size_node_eq, size] using hsz
    | node rs rl rk rv rr =>
      obtain ⟨r', mk, mv, heq, hb, hv, hs, hr⟩ := delete_max_aux h.right (by simp)
      refine ⟨rebalance l k v r', mk, mv, ?_, hb, ?_, ?_, ?_⟩
      · rw [delete_max, heq]
      · rw [toOrd_rebalance]
        refine h.left.balance' hv
          ⟨(toOrd l).size, (toOrd (node rs rl rk rv rr)).size, h.bal.1, Or.inr ⟨?_, rfl⟩⟩
        simp only [size_toOrd]
        simp [Nat.dist]
        omega
      · rw [size_rebalance k v h.left.sz hv.sz, size_node_eq]
        have hsz := h.sz.1
        simp only [size_toOrd] at hsz
        omega
      · rw [toList, hr, toList_rebalance]
        simp

/-- Filtering the key of the root out of a node's sorted sequence when
both subtrees avoid that key. -/
theorem filter_ne_key {sz : ℕ} {l r : Tree β} {k' q : ℕ} {v' : β}
    (hl : ∀ e ∈ toList l, (e.key != q) = true)
    (hr : ∀ e ∈ toList r, (e.key != q) = true) (hk : k' = q) :
    (toList (node sz l k' v' r)).filter (fun e => e.key != q) = toList l ++ toList r := by
  rw [toList, List.filter_append, List.filter_cons]
  have hq : ((⟨k', v'⟩ : Entry β).key != q) = false := by simp [hk]
  rw [hq, List.filter_eq_self.2 hl, List.filter_eq_self.2 hr]
  simp

/-- `remove` on a valid tree: either the key is absent and the result
is `none`, or the entry is removed — validity is preserved, the size
drops by one, and the sorted sequence is filtered at the key. -/
theorem remove_aux (q : ℕ) :
    ∀ {t : Tree β} {o₁ : WithBot (Entry β)} {o₂ : WithTop (Entry β)},
      Ordnode.Valid' o₁ (toOrd t) o₂ →
      (remove t q = none ∧ get t q = none) ∨
      (∃ t' w, remove t q = some (t', w) ∧ get t q = some w ∧
        Ordnode.Valid' o₁ (toOrd t') o₂ ∧ size t = size t' + 1 ∧
        toList t' = (toList t).filter (fun e => e.key != q))
  | tip, _, _, _ => Or.inl ⟨rfl, rfl⟩
  | node sz l k' v' r, o₁, o₂, h => by
    rw [toOrd_node] at h
    have hsz := h.sz.1
    simp only [size_toOrd] at hsz
    rw [remove, get]
    cases hc : compare q k' with
    | lt =>
      have hqk : q < k' := Nat.compare_eq_lt.1 hc
      rcases remove_aux q h.left with ⟨hn, hg⟩ | ⟨l', w, heq, hget, hv, hs, hfil⟩
      · exact Or.inl ⟨by rw [hn], hg⟩
      · refine Or.inr ⟨rebalance l' k' v' r, w, by rw [heq], hget, ?_, ?_, ?_⟩
        · rw [toOrd_rebalance]
          refine hv.balance' h.right
            ⟨(toOrd l).size, (toOrd r).size, h.bal.1, Or.inl ⟨?_, rfl⟩⟩
          simp only [size_toOrd]
          simp [Nat.dist]
          omega
        · rw [size_rebalance k' v' hv.sz h.right.sz, size_node_eq]
          omega
        · have hkeep : ∀ e ∈ toList r, (e.key != q) = true := by
            intro e he
            have := mem_keys_gt h.ord.2 e he
            simp [bne_iff_ne]
            omega
          rw [toList_rebalance, toList, List.filter_append, List.filter_cons, hfil,
            List.filter_eq_self.2 hkeep]
          have : ((⟨k', v'⟩ : Entry β).key != q) = true := by
            simp [bne_iff_ne]
            omega
          rw [this]
          simp
    | eq =>
      have hqk : q = k' := Nat.compare_eq_eq.1 hc
      subst hqk
      have hlkeep : ∀ e ∈ toList l, (e.key != q) = true := by
        intro e he
        have := mem_keys_lt h.ord.1 e he
        simp [bne_iff_ne]
        omega
      have hrkeep : ∀ e ∈ toList r, (e.key != q) = true := by
        intro e he
        have := mem_keys_gt h.ord.2 e he
        simp [bne_iff_ne]
        omega
      cases l with
      | tip =>
        refine Or.inr ⟨r, v', rfl, rfl, Ordnode.Valid'.trans_left h.ord.1 h.right, ?_, ?_⟩
        · simpa [size_node_eq, size] using hsz
        · rw [filter_ne_key hlkeep hrkeep rfl]
          simp [toList]
      | node ls ll lk lv lr =>
        cases r with
        | tip =>
          refine Or.inr ⟨node ls ll lk lv lr, v', rfl, rfl,
            Ordnode.Valid'.trans_right h.left h.ord.2, ?_, ?_⟩
          · simpa [size_node_eq, size] using hsz
          · rw [filter_ne_key hlkeep hrkeep rfl]
            simp [toList]
        | node rs rl rk rv rr =>
          obtain ⟨r', sk, sv, heqd, hbnd, hvr, hsd, hld⟩ :=
            delete_min_aux h.right (by simp)
          have hlt : (⟨q, v'⟩ : Entry β) < ⟨sk, sv⟩ := hbnd
          refine Or.inr ⟨rebalance (node ls ll lk lv lr) sk sv r', v',
            by simp only [remove_root]; rw [heqd], rfl, ?_, ?_, ?_⟩
          · rw [toOrd_rebalance]
            refine Ordnode.Valid'.balance'
              ⟨h.left.ord.mono_right (le_of_lt hlt), h.left.sz, h.left.bal⟩ hvr
              ⟨(toOrd (node ls ll lk lv lr)).size, (toOrd (node rs rl rk rv rr)).size,
                h.bal.1, Or.inr ⟨?_, rfl⟩⟩
            simp only [size_toOrd]
            simp [Nat.dist]
            omega
          · rw [size_rebalance sk sv h.left.sz hvr.sz, size_node_eq]
            omega
          · rw [toList_rebalance, filter_ne_key hlkeep hrkeep rfl, hld]
    | gt =>
      have hqk : k' < q := Nat.compare_eq_gt.1 hc
      rcases remove_aux q h.right with ⟨hn, hg⟩ | ⟨r', w, heq, hget, hv, hs, hfil⟩
      · exact Or.inl ⟨by rw [hn], hg⟩
      · refine Or.inr ⟨rebalance l k' v' r', w, by rw [heq], hget, ?_, ?_, ?_⟩
        · rw [toOrd_rebalance]
          refine h.left.balance' hv
            ⟨(toOrd l).size, (toOrd r).size, h.bal.1, Or.inr ⟨?_, rfl⟩⟩
          simp only [size_toOrd]
          simp [Nat.dist]
          omega
        · rw [size_rebalance k' v' h.left.sz hv.sz, size_node_eq]
          omega
        · have hkeep : ∀ e ∈ toList l, (e.key != q) = true := by
            intro e he
            have := mem_keys_lt h.ord.1 e he
            simp [bne_iff_ne]
            omega
          rw [toList_rebalance, toList, List.filter_append, List.filter_cons, hfil,
            List.filter_eq_self.2 hkeep]
          have : ((⟨k', v'⟩ : Entry β).key != q) = true := by
            simp [bne_iff_ne]
            omega
          rw [this]
          simp

theorem map_eq_self {γ : Type} {g : γ → γ} {xs : List γ} (h : ∀ e ∈ xs, g e = e) :
    xs.map g = xs := by
  induction xs with
  | nil => rfl
  | cons a xs ih =>
    rw [List.map_cons, h a (List.mem_cons_self a xs),
      ih fun e he => h e (List.mem_cons_of_mem _ he)]

/-- `update` on a valid tree: either the key is absent and the result
is `none`, or only the payload at the key is rewritten — the shape,
sizes and all other entries are untouched. -/
theorem update_aux (q : ℕ) (f : β → β) :
    ∀ {t : Tree β} {o₁ : WithBot (Entry β)} {o₂ : WithTop (Entry β)},
      Ordnode.Valid' o₁ (toOrd t) o₂ →
      (update t q f = none ∧ get t q = none) ∨
      (∃ t' w, update t q f = some t' ∧ get t q = some w ∧
        Ordnode.Valid' o₁ (toOrd t') o₂ ∧ size t' = size t ∧
        toList t' = (toList t).map fun e => if e.key = q then ⟨q, f w⟩ else e)
  | tip, _, _, _ => Or.inl ⟨rfl, rfl⟩
  | node sz l k' v' r, o₁, o₂, h => by
    rw [toOrd_node] at h
    have hsz := h.sz.1
    simp only [size_toOrd] at hsz
    rw [update, get]
    cases hc : compare q k' with
    | lt =>
      have hqk : q < k' := Nat.compare_eq_lt.1 hc
      rcases update_aux q f h.left with ⟨hn, hg⟩ | ⟨l', w, heq, hget, hv, hs, hmap⟩
      · exact Or.inl ⟨by rw [hn]; rfl, hg⟩
      · refine Or.inr ⟨node sz l' k' v' r, w, by rw [heq]; rfl, hget, ?_, rfl, ?_⟩
        · refine ⟨⟨hv.ord, h.ord.2⟩, ⟨?_, hv.sz, h.sz.2.2⟩, ⟨?_, hv.bal, h.bal.2.2⟩⟩
          · simp only [size_toOrd, hs]
            exact hsz
          · simp only [size_toOrd, hs]
            have := h.bal.1
            simpa only [size_toOrd] using this
        · have hrfix : ∀ e ∈ toList r,
              (if e.key = q then (⟨q, f w⟩ : Entry β) else e) = e := by
            intro e he
            have := mem_keys_gt h.ord.2 e he
            rw [if_neg]
            omega
          have hroot : (if (⟨k', v'⟩ : Entry β).key = q then (⟨q, f w⟩ : Entry β)
              else ⟨k', v'⟩) = ⟨k', v'⟩ := by
            rw [if_neg]
            simp only [Entry.key]
            omega
          rw [toList, toList, List.map_append, List.map_cons, hmap, map_eq_self hrfix, hroot]
    | eq =>
      have hqk : q = k' := Nat.compare_eq_eq.1 hc
      refine Or.inr ⟨node sz l k' (f v') r, v', rfl, rfl, ?_, rfl, ?_⟩
      · refine ⟨⟨h.ord.1.mono_right ?_, h.ord.2.mono_left ?_⟩,
          ⟨h.sz.1, h.sz.2.1, h.sz.2.2⟩, ⟨h.bal.1, h.bal.2.1, h.bal.2.2⟩⟩
        · exact entry_le_iff.2 (Nat.le_refl _)
        · exact entry_le_iff.2 (Nat.le_refl _)
      · have hlfix : ∀ e ∈ toList l,
            (if e.key = q then (⟨q, f v'⟩ : Entry β) else e) = e := by
          intro e he
          have := mem_keys_lt h.ord.1 e he
          rw [if_neg]
          omega
        have hrfix : ∀ e ∈ toList r,
            (if e.key = q then (⟨q, f v'⟩ : Entry β) else e) = e := by
          intro e he
          have := mem_keys_gt h.ord.2 e he
          rw [if_neg]
          omega
        have hroot : (if (⟨k', v'⟩ : Entry β).key = q then (⟨q, f v'⟩ : Entry β)
            else ⟨k', v'⟩) = ⟨k', f v'⟩ := by
          rw [if_pos]
          · rw [hqk]
          · simp only [Entry.key]
            omega
        rw [toList, toList, List.map_append, List.map_cons, map_eq_self hlfix,
          map_eq_self hrfix, hroot]
    | gt =>
      have hqk : k' < q := Nat.compare_eq_gt.1 hc
      rcases update_aux q f h.right with ⟨hn, hg⟩ | ⟨r', w, heq, hget, hv, hs, hmap⟩
      · exact Or.inl ⟨by rw [hn]; rfl, hg⟩
      · refine Or.inr ⟨node sz l k' v' r', w, by rw [heq]; rfl, hget, ?_, rfl, ?_⟩
        · refine ⟨⟨h.ord.1, hv.ord⟩, ⟨?_, h.sz.2.1, hv.sz⟩, ⟨?_, h.bal.2.1, hv.bal⟩⟩
          · simp only [size_toOrd, hs]
            exact hsz
          · simp only [size_toOrd, hs]
            have := h.bal.1
            simpa only [size_toOrd] using this
        · have hlfix : ∀ e ∈ toList l,
              (if e.key = q then (⟨q, f w⟩ : Entry β) else e) = e := by
            intro e he
            have := mem_keys_lt h.ord.1 e he
            rw [if_neg]
            omega
          have hroot : (if (⟨k', v'⟩ : Entry β).key = q then (⟨q, f w⟩ : Entry β)
              else ⟨k', v'⟩) = ⟨k', v'⟩ := by
            rw [if_neg]
            simp only [Entry.key]
            omega
          rw [toList, toList, List.map_append, List.map_cons, hmap, map_eq_self hlfix, hroot]

/-- `insert_if_absent` is `insert` guarded by a containment check. -/
theorem insert_if_absent_eq (k : ℕ) (v : β) :
    ∀ t : Tree β, insert_if_absent t k v =
      if contains_key t k then none else some (insert t k v)
  | tip => rfl
  | node sz l k' v' r => by
    rw [insert_if_absent, contains_key, get, insert, ins]
    cases hc : compare k k' with
    | lt =>
      rw [insert_if_absent_eq k v l, contains_key]
      by_cases hck : (get l k).isSome
      · rw [if_pos hck, if_pos hck]
        rfl
      · rw [if_neg hck, if_neg hck]
        rfl
    | eq => rfl
    | gt =>
      rw [insert_if_absent_eq k v r, contains_key]
      by_cases hck : (get r k).isSome
      · rw [if_pos hck, if_pos hck]
        rfl
      · rw [if_neg hck, if_neg hck]
        rfl

theorem from_iter_valid_aux :
    ∀ (xs : List (Entry β)) (t : Tree β), (toOrd t).Valid →
      (toOrd (xs.foldl (fun t e => insert t e.key e.val) t)).Valid
  | [], _, h => h
  | e :: xs, _, h =>
    from_iter_valid_aux xs _ ((ins_aux e.key e.val _ h trivial trivial).1)

/-- Every tree reachable by core operations from the empty tree is
valid in the `Ordnode` sense. -/
theorem reachable_valid : ∀ {t : Tree β}, Reachable t → (toOrd t).Valid := by
  intro t h
  induction h with
  | new => exact Ordnode.valid_nil
  | insert k v _ ih => exact (ins_aux k v _ ih trivial trivial).1
  | insert_if_absent k v hr heq ih =>
    rename_i t₀ t'
    rw [insert_if_absent_eq] at heq
    by_cases hck : contains_key t₀ k
    · rw [if_pos hck] at heq
      cases heq
    · rw [if_neg hck] at heq
      cases heq
      exact (ins_aux k v _ ih trivial trivial).1
  | update k f hr heq ih =>
    rcases update_aux k f ih with ⟨hn, _⟩ | ⟨t'', w, heq', _, hv, _, _⟩
    · rw [hn] at heq
      cases heq
    · rw [heq'] at heq
      cases heq
      exact hv
  | insert_or_update k v f hr ih => exact (ins_aux k v f ih trivial trivial).1
  | remove k hr heq ih =>
    rcases remove_aux k ih with ⟨hn, _⟩ | ⟨t'', w, heq', _, hv, _, _⟩
    · rw [hn] at heq
      cases heq
    · rw [heq'] at heq
      cases heq
      exact hv
  | delete_min hr heq ih =>
    rename_i t₀ t' k v
    have hne : t₀ ≠ tip := by
      rintro rfl
      cases heq
    obtain ⟨t'', mk, mv, heq', _, hv, _, _⟩ := delete_min_aux ih hne
    rw [heq'] at heq
    cases heq
    exact ⟨hv.ord.weak_left, hv.sz, hv.bal⟩
  | delete_max hr heq ih =>
    rename_i t₀ t' k v
    have hne : t₀ ≠ tip := by
      rintro rfl
      cases heq
    obtain ⟨t'', mk, mv, heq', _, hv, _, _⟩ := delete_max_aux ih hne
    rw [heq'] at heq
    cases heq
    exact ⟨hv.ord.weak_right, hv.sz, hv.bal⟩
  | from_iter xs => exact from_iter_valid_aux xs new Ordnode.valid_nil

/-! ## The sorted sequence after an insertion -/

theorem list_insert_append_lt {k k' : ℕ} {v v' : β} {f : β → β} (hk : k < k') :
    ∀ (xs : List (Entry β)) (ys : List (Entry β)),
      list_insert k v f (xs ++ ⟨k', v'⟩ :: ys) = list_insert k v f xs ++ ⟨k', v'⟩ :: ys
  | [], ys => by simp [list_insert, hk]
  | e :: xs, ys => by
    simp only [List.cons_append, list_insert]
    split_ifs
    · simp
    · simp
    · simp only [List.append_eq]
      rw [list_insert_append_lt hk xs ys]
      simp

theorem list_insert_append_ge {k : ℕ} {v : β} {f : β → β} :
    ∀ {xs : List (Entry β)}, (∀ e ∈ xs, e.key < k) →
      ∀ ys, list_insert k v f (xs ++ ys) = xs ++ list_insert k v f ys
  | [], _, _ => rfl
  | e :: xs, h, ys => by
    have he : e.key < k := h e (List.mem_cons_self _ _)
    simp only [List.cons_append, list_insert]
    simp only [List.append_eq]
    rw [if_neg (by omega), if_neg (by omega),
      list_insert_append_ge (fun e' he' => h e' (List.mem_cons_of_mem _ he')) ys]

/-- The sorted sequence after the insertion descent is exactly the
spec-side splice-or-replace on the input sequence. -/
theorem toList_ins (k : ℕ) (v : β) (f : β → β) :
    ∀ {t : Tree β} {o₁ : WithBot (Entry β)} {o₂ : WithTop (Entry β)},
      (toOrd t).Bounded o₁ o₂ →
      toList (ins k v f t) = list_insert k v f (toList t)
  | tip, _, _, _ => rfl
  | node sz l k' v' r, o₁, o₂, h => by
    rw [toOrd_node] at h
    obtain ⟨hbl, hbr⟩ := h
    rw [ins, toList]
    cases hc : compare k k' with
    | lt =>
      have hk : k < k' := Nat.compare_eq_lt.1 hc
      rw [toList_rebalance, toList_ins k v f hbl, list_insert_append_lt hk]
    | eq =>
      have hk : k = k' := Nat.compare_eq_eq.1 hc
      subst hk
      have hall : ∀ e ∈ toList l, e.key < k := mem_keys_lt hbl
      rw [list_insert_append_ge hall, toList]
      congr 1
      simp [list_insert]
    | gt =>
      have hk : k' < k := Nat.compare_eq_gt.1 hc
      have hall : ∀ e ∈ toList l ++ [(⟨k', v'⟩ : Entry β)], e.key < k := by
        intro e he
        rcases List.mem_append.1 he with he | he
        · exact (mem_keys_lt hbl e he).trans hk
        · rcases List.mem_singleton.1 he with rfl
          exact hk
      rw [toList_rebalance, toList_ins k v f hbr,
        show toList l ++ (⟨k', v'⟩ : Entry β) :: toList r
            = (toList l ++ [(⟨k', v'⟩ : Entry β)]) ++ toList r by simp,
        list_insert_append_ge hall]
      simp

/-! ## `get` against the sorted sequence -/

theorem get_eq_some_iff (q : ℕ) (w : β) :
    ∀ {t : Tree β} {o₁ : WithBot (Entry β)} {o₂ : WithTop (Entry β)},
      (toOrd t).Bounded o₁ o₂ →
      (get t q = some w ↔ (⟨q, w⟩ : Entry β) ∈ toList t)
  | tip, _, _, _ => by simp [get, toList]
  | node sz l k' v' r, o₁, o₂, h => by
    rw [toOrd_node] at h
    obtain ⟨hbl, hbr⟩ := h
    rw [get, toList]
    cases hc : compare q k' with
    | lt =>
      have hk : q < k' := Nat.compare_eq_lt.1 hc
      rw [get_eq_some_iff q w hbl]
      simp only [List.mem_append, List.mem_cons]
      constructor
      · exact fun hm => Or.inl hm
      · rintro (hm | he | hm)
        · exact hm
        · cases he
          omega
        · have := mem_keys_gt hbr _ hm
          simp only [Entry.key] at this
          omega
    | eq =>
      have hk : q = k' := Nat.compare_eq_eq.1 hc
      subst hk
      simp only [List.mem_append, List.mem_cons]
      constructor
      · intro hw
        injection hw with hw
        subst hw
        exact Or.inr (Or.inl rfl)
      · rintro (hm | he | hm)
        · have := mem_keys_lt hbl _ hm
          simp only [Entry.key] at this
          omega
        · cases he
          rfl
        · have := mem_keys_gt hbr _ hm
          simp only [Entry.key] at this
          omega
    | gt =>
      have hk : k' < q := Nat.compare_eq_gt.1 hc
      rw [get_eq_some_iff q w hbr]
      simp only [List.mem_append, List.mem_cons]
      constructor
      · exact fun hm => Or.inr (Or.inr hm)
      · rintro (hm | he | hm)
        · have := mem_keys_lt hbl _ hm
          simp only [Entry.key] at this
          omega
        · cases he
          omega
        · exact hm

theorem get_eq_none_iff (q : ℕ) {t : Tree β} {o₁ : WithBot (Entry β)}
    {o₂ : WithTop (Entry β)} (h : (toOrd t).Bounded o₁ o₂) :
    (get t q = none ↔ ∀ e ∈ toList t, e.key ≠ q) := by
  constructor
  · intro hn e he hkey
    obtain ⟨ek, ev⟩ := e
    simp only [Entry.key] at hkey
    subst hkey
    rw [(get_eq_some_iff _ ev h).2 he] at hn
    cases hn
  · intro hall
    cases hg : get t q with
    | none => rfl
    | some w =>
      have := (get_eq_some_iff q w h).1 hg
      exact absurd rfl (hall _ this)

/-! ## Range iteration -/

theorem lo_ok_down {lo : Bound ℕ} {a b : ℕ} (hab : a ≤ b) (h : lo_ok lo b = false) :
    lo_ok lo a = false := by
  cases lo <;> simp_all [lo_ok] <;> omega

theorem hi_ok_up {hi : Bound ℕ} {a b : ℕ} (hab : a ≤ b) (h : hi_ok hi a = false) :
    hi_ok hi b = false := by
  cases hi <;> simp_all [hi_ok] <;> omega

/-- `range` yields exactly the entries whose keys satisfy both bounds,
in order. -/
theorem range_eq_filter :
    ∀ {t : Tree β} {o₁ : WithBot (Entry β)} {o₂ : WithTop (Entry β)},
      (toOrd t).Bounded o₁ o₂ → ∀ lo hi,
      range t lo hi = (toList t).filter fun e => lo_ok lo e.key && hi_ok hi e.key
  | tip, _, _, _, _, _ => rfl
  | node sz l k v r, o₁, o₂, h, lo, hi => by
    rw [toOrd_node] at h
    obtain ⟨hbl, hbr⟩ := h
    rw [range, toList]
    by_cases hlo : lo_ok lo k = true
    · rw [if_pos hlo]
      by_cases hhi : hi_ok hi k = true
      · rw [if_pos hhi, range_eq_filter hbl lo hi, range_eq_filter hbr lo hi,
          List.filter_append, List.filter_cons]
        have hck : (lo_ok lo (⟨k, v⟩ : Entry β).key &&
            hi_ok hi (⟨k, v⟩ : Entry β).key) = true := by
          simp only [Entry.key]
          rw [hlo, hhi]
          rfl
        rw [hck]
        simp
      · rw [if_neg hhi, range_eq_filter hbl lo hi, List.filter_append, List.filter_cons]
        have hhi' : hi_ok hi k = false := by simpa using hhi
        have hck : (lo_ok lo (⟨k, v⟩ : Entry β).key &&
            hi_ok hi (⟨k, v⟩ : Entry β).key) = false := by
          simp only [Entry.key]
          rw [hhi']
          simp
        rw [hck]
        have hnil : (toList r).filter (fun e => lo_ok lo e.key && hi_ok hi e.key) = [] := by
          rw [List.filter_eq_nil_iff]
          intro e he
          have hk := mem_keys_gt hbr e he
          have : hi_ok hi e.key = false := hi_ok_up (le_of_lt hk) hhi'
          simp [this]
        rw [hnil]
        simp
    · rw [if_neg hlo]
      have hlo' : lo_ok lo k = false := by simpa using hlo
      rw [range_eq_filter hbr lo hi, List.filter_append, List.filter_cons]
      have hck : (lo_ok lo (⟨k, v⟩ : Entry β).key &&
          hi_ok hi (⟨k, v⟩ : Entry β).key) = false := by
        simp only [Entry.key]
        rw [hlo']
        simp
      rw [hck]
      have hnil : (toList l).filter (fun e => lo_ok lo e.key && hi_ok hi e.key) = [] := by
        rw [List.filter_eq_nil_iff]
        intro e he
        have hk := mem_keys_lt hbl e he
        have : lo_ok lo e.key = false := lo_ok_down (le_of_lt hk) hlo'
        simp [this]
      rw [hnil]
      simp

/-- `range(Unbounded, Unbounded)` is full forward iteration. -/
theorem range_unbounded : ∀ t : Tree β, range t Bound.Unbounded Bound.Unbounded = toList t
  | tip => rfl
  | node sz l k v r => by
    rw [range, toList]
    simp [lo_ok, hi_ok, range_unbounded l, range_unbounded r]

/-! ## Membership and ordering of the set-algebra merges -/

theorem merge_inter_sublist (xs ys : List ℕ) : List.Sublist (merge_inter xs ys) xs := by
  induction xs, ys using merge_inter.induct with
  | case1 ys => simp [merge_inter]
  | case2 a as => simp [merge_inter]
  | case3 a as b bs hab ih =>
    rw [merge_inter, if_pos hab]
    exact ih.cons a
  | case4 a as b bs hab hba ih =>
    rw [merge_inter, if_neg hab, if_pos hba]
    exact ih
  | case5 a as b bs hab hba ih =>
    rw [merge_inter, if_neg hab, if_neg hba]
    exact ih.cons₂ a

theorem merge_diff_sublist (xs ys : List ℕ) : List.Sublist (merge_diff xs ys) xs := by
  induction xs, ys using merge_diff.induct with
  | case1 ys => simp [merge_diff]
  | case2 a as => simp [merge_diff]
  | case3 a as b bs hab ih =>
    rw [merge_diff, if_pos hab]
    exact ih.cons₂ a
  | case4 a as b bs hab hba ih =>
    rw [merge_diff, if_neg hab, if_pos hba]
    exact ih
  | case5 a as b bs hab hba ih =>
    rw [merge_diff, if_neg hab, if_neg hba]
    exact ih.cons a

theorem mem_merge_inter (c : ℕ) (xs ys : List ℕ) :
    List.Pairwise (· < ·) xs → List.Pairwise (· < ·) ys →
    (c ∈ merge_inter xs ys ↔ c ∈ xs ∧ c ∈ ys) := by
  induction xs, ys using merge_inter.induct with
  | case1 ys => intro _ _; simp [merge_inter]
  | case2 a as => intro _ _; simp [merge_inter]
  | case3 a as b bs hab ih =>
    intro hx hy
    rw [merge_inter, if_pos hab, ih (List.pairwise_cons.1 hx).2 hy]
    have hbs : ∀ x ∈ bs, b < x := (List.pairwise_cons.1 hy).1
    constructor
    · rintro ⟨h₁, h₂⟩
      exact ⟨List.mem_cons_of_mem _ h₁, h₂⟩
    · rintro ⟨h₁, h₂⟩
      rcases List.mem_cons.1 h₁ with rfl | h₁
      · rcases List.mem_cons.1 h₂ with rfl | h₂
        · omega
        · have := hbs _ h₂
          omega
      · exact ⟨h₁, h₂⟩
  | case4 a as b bs hab hba ih =>
    intro hx hy
    rw [merge_inter, if_neg hab, if_pos hba, ih hx (List.pairwise_cons.1 hy).2]
    have has : ∀ x ∈ as, a < x := (List.pairwise_cons.1 hx).1
    constructor
    · rintro ⟨h₁, h₂⟩
      exact ⟨h₁, List.mem_cons_of_mem _ h₂⟩
    · rintro ⟨h₁, h₂⟩
      rcases List.mem_cons.1 h₂ with rfl | h₂
      · rcases List.mem_cons.1 h₁ with rfl | h₁
        · omega
        · have := has _ h₁
          omega
      · exact ⟨h₁, h₂⟩
  | case5 a as b bs hab hba ih =>
    intro hx hy
    have hab' : a = b := by omega
    subst hab'
    rw [merge_inter, if_neg hab, if_neg hba]
    have has : ∀ x ∈ as, a < x := (List.pairwise_cons.1 hx).1
    have hbs : ∀ x ∈ bs, a < x := (List.pairwise_cons.1 hy).1
    simp only [List.mem_cons, ih (List.pairwise_cons.1 hx).2 (List.pairwise_cons.1 hy).2]
    constructor
    · rintro (rfl | ⟨h₁, h₂⟩)
      · exact ⟨Or.inl rfl, Or.inl rfl⟩
      · exact ⟨Or.inr h₁, Or.inr h₂⟩
    · rintro ⟨rfl | h₁, h₂⟩
      · exact Or.inl rfl
      · rcases h₂ with rfl | h₂
        · have := has _ h₁
          omega
        · exact Or.inr ⟨h₁, h₂⟩

theorem mem_merge_union (c : ℕ) (xs ys : List ℕ) :
    c ∈ merge_union xs ys ↔ c ∈ xs ∨ c ∈ ys := by
  induction xs, ys using merge_union.induct with
  | case1 ys => simp [merge_union]
  | case2 a as => simp [merge_union]
  | case3 a as b bs hab ih =>
    rw [merge_union, if_pos hab]
    simp only [List.mem_cons, ih]
    tauto
  | case4 a as b bs hab hba ih =>
    rw [merge_union, if_neg hab, if_pos hba]
    simp only [List.mem_cons, ih]
    tauto
  | case5 a as b bs hab hba ih =>
    have hab' : a = b := by omega
    subst hab'
    rw [merge_union, if_neg hab, if_neg hba]
    simp only [List.mem_cons, ih]
    tauto

theorem merge_union_pairwise (xs ys : List ℕ) :
    List.Pairwise (· < ·) xs → List.Pairwise (· < ·) ys →
    List.Pairwise (· < ·) (merge_union xs ys) := by
  induction xs, ys using merge_union.induct with
  | case1 ys => intro _ h; simpa [merge_union] using h
  | case2 a as => intro h _; simpa [merge_union] using h
  | case3 a as b bs hab ih =>
    intro hx hy
    rw [merge_union, if_pos hab]
    refine List.pairwise_cons.2 ⟨?_, ih (List.pairwise_cons.1 hx).2 hy⟩
    intro c hc
    rcases (mem_merge_union c as (b :: bs)).1 hc with hc | hc
    · exact (List.pairwise_cons.1 hx).1 c hc
    · rcases List.mem_cons.1 hc with rfl | hc
      · omega
      · have := (List.pairwise_cons.1 hy).1 c hc
        omega
  | case4 a as b bs hab hba ih =>
    intro hx hy
    rw [merge_union, if_neg hab, if_pos hba]
    refine List.pairwise_cons.2 ⟨?_, ih hx (List.pairwise_cons.1 hy).2⟩
    intro c hc
    rcases (mem_merge_union c (a :: as) bs).1 hc with hc | hc
    · rcases List.mem_cons.1 hc with rfl | hc
      · omega
      · have := (List.pairwise_cons.1 hx).1 c hc
        omega
    · exact (List.pairwise_cons.1 hy).1 c hc
  | case5 a as b bs hab hba ih =>
    intro hx hy
    have hab' : a = b := by omega
    subst hab'
    rw [merge_union, if_neg hab, if_neg hba]
    refine List.pairwise_cons.2
      ⟨?_, ih (List.pairwise_cons.1 hx).2 (List.pairwise_cons.1 hy).2⟩
    intro c hc
    rcases (mem_merge_union c as bs).1 hc with hc | hc
    · exact (List.pairwise_cons.1 hx).1 c hc
    · exact (List.pairwise_cons.1 hy).1 c hc

theorem mem_merge_diff (c : ℕ) (xs ys : List ℕ) :
    List.Pairwise (· < ·) xs → List.Pairwise (· < ·) ys →
    (c ∈ merge_diff xs ys ↔ c ∈ xs ∧ c ∉ ys) := by
  induction xs, ys using merge_diff.induct with
  | case1 ys => intro _ _; simp [merge_diff]
  | case2 a as => intro _ _; simp [merge_diff]
  | case3 a as b bs hab ih =>
    intro hx hy
    have has : c ∈ as → a < c := fun h => (List.pairwise_cons.1 hx).1 c h
    have hbs : c ∈ bs → b < c := fun h => (List.pairwise_cons.1 hy).1 c h
    rw [merge_diff, if_pos hab]
    simp only [List.mem_cons, ih (List.pairwise_cons.1 hx).2 hy]
    constructor
    · rintro (rfl | ⟨h₁, h₂⟩)
      · refine ⟨Or.inl rfl, ?_⟩
        rintro (rfl | hc)
        · omega
        · exact absurd (hbs hc) (by omega)
      · exact ⟨Or.inr h₁, h₂⟩
    · rintro ⟨rfl | h₁, h₂⟩
      · exact Or.inl rfl
      · exact Or.inr ⟨h₁, h₂⟩
  | case4 a as b bs hab hba ih =>
    intro hx hy
    have has : c ∈ as → a < c := fun h => (List.pairwise_cons.1 hx).1 c h
    rw [merge_diff, if_neg hab, if_pos hba, ih hx (List.pairwise_cons.1 hy).2]
    simp only [List.mem_cons]
    constructor
    · rintro ⟨h₁, h₂⟩
      refine ⟨h₁, ?_⟩
      rintro (rfl | hc)
      · rcases h₁ with rfl | h₁
        · omega
        · exact absurd (has h₁) (by omega)
      · exact h₂ hc
    · rintro ⟨h₁, h₂⟩
      exact ⟨h₁, fun hc => h₂ (Or.inr hc)⟩
  | case5 a as b bs hab hba ih =>
    intro hx hy
    have hab' : a = b := by omega
    subst hab'
    have has : c ∈ as → a < c := fun h => (List.pairwise_cons.1 hx).1 c h
    rw [merge_diff, if_neg hab, if_neg hba,
      ih (List.pairwise_cons.1 hx).2 (List.pairwise_cons.1 hy).2]
    simp only [List.mem_cons]
    constructor
    · rintro ⟨h₁, h₂⟩
      refine ⟨Or.inr h₁, ?_⟩
      rintro (rfl | hc)
      · exact absurd (has h₁) (by omega)
      · exact h₂ hc
    · rintro ⟨rfl | h₁, h₂⟩
      · exact absurd (Or.inl rfl) h₂
      · exact ⟨h₁, fun hc => h₂ (Or.inr hc)⟩

theorem mem_merge_symm_diff (c : ℕ) (xs ys : List ℕ) :
    List.Pairwise (· < ·) xs → List.Pairwise (· < ·) ys →
    (c ∈ merge_symm_diff xs ys ↔ (c ∈ xs ∧ c ∉ ys) ∨ (c ∈ ys ∧ c ∉ xs)) := by
  induction xs, ys using merge_symm_diff.induct with
  | case1 ys => intro _ _; simp [merge_symm_diff]
  | case2 a as => intro _ _; simp [merge_symm_diff]
  | case3 a as b bs hab ih =>
    intro hx hy
    have has : c ∈ as → a < c := fun h => (List.pairwise_cons.1 hx).1 c h
    have hbs : c ∈ bs → b < c := fun h => (List.pairwise_cons.1 hy).1 c h
    rw [merge_symm_diff, if_pos hab]
    simp only [List.mem_cons, ih (List.pairwise_cons.1 hx).2 hy]
    constructor
    · rintro (rfl | ⟨h₁, h₂⟩ | ⟨h₁, h₂⟩)
      · refine Or.inl ⟨Or.inl rfl, ?_⟩
        rintro (rfl | hc)
        · omega
        · exact absurd (hbs hc) (by omega)
      · exact Or.inl ⟨Or.inr h₁, h₂⟩
      · refine Or.inr ⟨h₁, ?_⟩
        rintro (rfl | hc)
        · rcases h₁ with rfl | hb
          · omega
          · exact absurd (hbs hb) (by omega)
        · exact h₂ hc
    · rintro (⟨rfl | h₁, h₂⟩ | ⟨h₁, h₂⟩)
      · exact Or.inl rfl
      · exact Or.inr (Or.inl ⟨h₁, h₂⟩)
      · exact Or.inr (Or.inr ⟨h₁, fun hc => h₂ (Or.inr hc)⟩)
  | case4 a as b bs hab hba ih =>
    intro hx hy
    have has : c ∈ as → a < c := fun h => (List.pairwise_cons.1 hx).1 c h
    have hbs : c ∈ bs → b < c := fun h => (List.pairwise_cons.1 hy).1 c h
    rw [merge_symm_diff, if_neg hab, if_pos hba]
    simp only [List.mem_cons, ih hx (List.pairwise_cons.1 hy).2]
    constructor
    · rintro (rfl | ⟨h₁, h₂⟩ | ⟨h₁, h₂⟩)
      · refine Or.inr ⟨Or.inl rfl, ?_⟩
        rintro (rfl | hc)
        · omega
        · exact absurd (has hc) (by omega)
      · refine Or.inl ⟨h₁, ?_⟩
        rintro (rfl | hc)
        · rcases h₁ with rfl | ha
          · omega
          · exact absurd (has ha) (by omega)
        · exact h₂ hc
      · exact Or.inr ⟨Or.inr h₁, h₂⟩
    · rintro (⟨h₁, h₂⟩ | ⟨rfl | h₁, h₂⟩)
      · exact Or.inr (Or.inl ⟨h₁, fun hc => h₂ (Or.inr hc)⟩)
      · exact Or.inl rfl
      · exact Or.inr (Or.inr ⟨h₁, h₂⟩)
  | case5 a as b bs hab hba ih =>
    intro hx hy
    have hab' : a = b := by omega
    subst hab'
    have has : c ∈ as → a < c := fun h => (List.pairwise_cons.1 hx).1 c h
    have hbs : c ∈ bs → a < c := fun h => (List.pairwise_cons.1 hy).1 c h
    rw [merge_symm_diff, if_neg hab, if_neg hba,
      ih (List.pairwise_cons.1 hx).2 (List.pairwise_cons.1 hy).2]
    simp only [List.mem_cons]
    constructor
    · rintro (⟨h₁, h₂⟩ | ⟨h₁, h₂⟩)
      · refine Or.inl ⟨Or.inr h₁, ?_⟩
        rintro (rfl | hc)
        · exact absurd (has h₁) (by omega)
        · exact h₂ hc
      · refine Or.inr ⟨Or.inr h₁, ?_⟩
        rintro (rfl | hc)
        · exact absurd (hbs h₁) (by omega)
        · exact h₂ hc
    · rintro (⟨rfl | h₁, h₂⟩ | ⟨rfl | h₁, h₂⟩)
      · exact absurd (Or.inl rfl) h₂
      · exact Or.inl ⟨h₁, fun hc => h₂ (Or.inr hc)⟩
      · exact absurd (Or.inl rfl) h₂
      · exact Or.inr ⟨h₁, fun hc => h₂ (Or.inr hc)⟩

theorem merge_symm_diff_pairwise (xs ys : List ℕ) :
    List.Pairwise (· < ·) xs → List.Pairwise (· < ·) ys →
    List.Pairwise (· < ·) (merge_symm_diff xs ys) := by
  induction xs, ys using merge_symm_diff.induct with
  | case1 ys => intro _ h; simpa [merge_symm_diff] using h
  | case2 a as => intro h _; simpa [merge_symm_diff] using h
  | case3 a as b bs hab ih =>
    intro hx hy
    rw [merge_symm_diff, if_pos hab]
    refine List.pairwise_cons.2 ⟨?_, ih (List.pairwise_cons.1 hx).2 hy⟩
    intro c hc
    rcases (mem_merge_symm_diff c as (b :: bs) (List.pairwise_cons.1 hx).2 hy).1 hc with
      ⟨hc, _⟩ | ⟨hc, _⟩
    · exact (List.pairwise_cons.1 hx).1 c hc
    · rcases List.mem_cons.1 hc with rfl | hc
      · omega
      · have := (List.pairwise_cons.1 hy).1 c hc
        omega
  | case4 a as b bs hab hba ih =>
    intro hx hy
    rw [merge_symm_diff, if_neg hab, if_pos hba]
    refine List.pairwise_cons.2 ⟨?_, ih hx (List.pairwise_cons.1 hy).2⟩
    intro c hc
    rcases (mem_merge_symm_diff c (a :: as) bs hx (List.pairwise_cons.1 hy).2).1 hc with
      ⟨hc, _⟩ | ⟨hc, _⟩
    · rcases List.mem_cons.1 hc with rfl | hc
      · omega
      · have := (List.pairwise_cons.1 hx).1 c hc
        omega
    · exact (List.pairwise_cons.1 hy).1 c hc
  | case5 a as b bs hab hba ih =>
    intro hx hy
    have hab' : a = b := by omega
    subst hab'
    rw [merge_symm_diff, if_neg hab, if_neg hba]
    exact ih (List.pairwise_cons.1 hx).2 (List.pairwise_cons.1 hy).2

/-! ## Further helper lemmas toward the claims -/

theorem WF.valid {t : Tree β} (h : WF t) : (toOrd t).Valid := (WF_iff_valid t).1 h

theorem WF.keys_pairwise {t : Tree β} (h : WF t) :
    List.Pairwise (· < ·) (keys t) :=
  pairwise_of_bounded t h.valid.ord

theorem mem_list_insert_self (k : ℕ) (v : β) :
    ∀ xs : List (Entry β), (⟨k, v⟩ : Entry β) ∈ list_insert k v (fun _ => v) xs
  | [] => List.mem_singleton_self _
  | e :: xs => by
    rw [list_insert]
    split_ifs with h₁ h₂
    · exact List.mem_cons_self _ _
    · exact List.mem_cons_self _ _
    · exact List.mem_cons_of_mem _ (mem_list_insert_self k v xs)

theorem filter_list_insert (k : ℕ) (v : β) (f : β → β) :
    ∀ xs : List (Entry β), (∀ e ∈ xs, e.key ≠ k) →
      (list_insert k v f xs).filter (fun e => e.key != k) = xs
  | [], _ => by simp [list_insert]
  | e :: xs, h => by
    have he : e.key ≠ k := h e (List.mem_cons_self _ _)
    have hkeep : ∀ a ∈ e :: xs, (a.key != k) = true := by
      intro a ha
      simpa [bne_iff_ne] using h a ha
    rw [list_insert]
    split_ifs with h₁ h₂
    · rw [List.filter_cons, show ((⟨k, v⟩ : Entry β).key != k) = false by simp,
        List.filter_eq_self.2 hkeep]
      simp
    · exact absurd h₂.symm he
    · rw [List.filter_cons, show (e.key != k) = true by simpa [bne_iff_ne] using he,
        filter_list_insert k v f xs fun a ha => h a (List.mem_cons_of_mem _ ha)]
      simp

theorem compare_val_swap {γ : Type} [LinearOrder γ] (a b : γ) :
    compare a b = (compare b a).swap := by
  rcases lt_trichotomy a b with h | h | h
  · rw [compare_lt_iff_lt.2 h, compare_gt_iff_gt.2 h]
    rfl
  · subst h
    rw [compare_eq_iff_eq.2 rfl]
    rfl
  · rw [compare_gt_iff_gt.2 h, compare_lt_iff_lt.2 h]
    rfl

theorem seq_eq_iff {β : Type} [DecidableEq β] :
    ∀ xs ys : List (Entry β), seq_eq xs ys = true ↔ xs = ys
  | [], [] => by simp [seq_eq]
  | [], _ :: _ => by simp [seq_eq]
  | _ :: _, [] => by simp [seq_eq]
  | e₁ :: xs, e₂ :: ys => by
    rw [seq_eq]
    simp only [Bool.and_eq_true, beq_iff_eq, decide_eq_true_eq, seq_eq_iff xs ys]
    constructor
    · rintro ⟨⟨h₁, h₂⟩, h₃⟩
      obtain ⟨k₁, v₁⟩ := e₁
      obtain ⟨k₂, v₂⟩ := e₂
      simp only [Entry.key, Entry.val] at h₁ h₂
      subst h₁
      subst h₂
      subst h₃
      rfl
    · intro h
      injection h with h₁ h₂
      subst h₁
      subst h₂
      exact ⟨⟨rfl, rfl⟩, rfl⟩

theorem seq_cmp_eq_iff {β : Type} [LinearOrder β] :
    ∀ xs ys : List (Entry β), seq_cmp compare xs ys = Ordering.eq ↔ xs = ys
  | [], [] => by simp [seq_cmp]
  | [], _ :: _ => by simp [seq_cmp]
  | _ :: _, [] => by simp [seq_cmp]
  | e₁ :: xs, e₂ :: ys => by
    rw [seq_cmp]
    cases hc : compare e₁.key e₂.key with
    | lt =>
      have hk := Nat.compare_eq_lt.1 hc
      constructor
      · intro h
        cases h
      · intro h
        injection h with h₁ h₂
        subst h₁
        omega
    | gt =>
      have hk := Nat.compare_eq_gt.1 hc
      constructor
      · intro h
        cases h
      · intro h
        injection h with h₁ h₂
        subst h₁
        omega
    | eq =>
      have hk := Nat.compare_eq_eq.1 hc
      cases hv : compare e₁.val e₂.val with
      | lt =>
        have hval := compare_lt_iff_lt.1 hv
        constructor
        · intro h
          cases h
        · intro h
          injection h with h₁ h₂
          subst h₁
          exact absurd hval (lt_irrefl _)
      | gt =>
        have hval := compare_gt_iff_gt.1 hv
        constructor
        · intro h
          cases h
        · intro h
          injection h with h₁ h₂
          subst h₁
          exact absurd hval (lt_irrefl _)
      | eq =>
        have hval := compare_eq_iff_eq.1 hv
        rw [seq_cmp_eq_iff xs ys]
        constructor
        · intro h
          obtain ⟨k₁, v₁⟩ := e₁
          obtain ⟨k₂, v₂⟩ := e₂
          simp only [Entry.key, Entry.val] at hk hval
          subst hk
          subst hval
          subst h
          rfl
        · intro h
          cases h
          rfl

theorem seq_cmp_lt_iff {β : Type} [LinearOrder β] :
    ∀ xs ys : List (Entry β),
      seq_cmp compare xs ys = Ordering.lt ↔ List.Lex entry_lex xs ys
  | [], [] => by
    rw [seq_cmp]
    exact iff_of_false (by intro h; cases h) (List.Lex.not_nil_right _ _)
  | [], e :: ys => by
    rw [seq_cmp]
    exact iff_of_true rfl List.Lex.nil
  | e :: xs, [] => by
    rw [seq_cmp]
    exact iff_of_false (by intro h; cases h) (List.Lex.not_nil_right _ _)
  | e₁ :: xs, e₂ :: ys => by
    rw [seq_cmp]
    cases hc : compare e₁.key e₂.key with
    | lt =>
      have hk := Nat.compare_eq_lt.1 hc
      exact iff_of_true rfl (List.Lex.rel (Or.inl hk))
    | gt =>
      have hk := Nat.compare_eq_gt.1 hc
      refine iff_of_false (by intro h; cases h) ?_
      intro h
      cases h with
      | cons h => omega
      | rel h =>
        rcases h with h | ⟨h, _⟩
        · omega
        · omega
    | eq =>
      have hk := Nat.compare_eq_eq.1 hc
      cases hv : compare e₁.val e₂.val with
      | lt =>
        have hval := compare_lt_iff_lt.1 hv
        exact iff_of_true rfl (List.Lex.rel (Or.inr ⟨hk, hval⟩))
      | gt =>
        have hval := compare_gt_iff_gt.1 hv
        refine iff_of_false (by intro h; cases h) ?_
        intro h
        cases h with
        | cons h => exact absurd hval (lt_irrefl _)
        | rel h =>
          rcases h with h | ⟨_, h⟩
          · omega
          · exact absurd hval (asymm h)
      | eq =>
        have hval := compare_eq_iff_eq.1 hv
        have he : e₁ = e₂ := by
          obtain ⟨k₁, v₁⟩ := e₁
          obtain ⟨k₂, v₂⟩ := e₂
          simp only [Entry.key, Entry.val] at hk hval
          subst hk
          subst hval
          rfl
        subst he
        rw [seq_cmp_lt_iff xs ys]
        constructor
        · exact fun h => List.Lex.cons h
        · intro h
          cases h with
          | cons h => exact h
          | rel h =>
            rcases h with h | ⟨_, h⟩
            · omega
            · exact absurd h (lt_irrefl _)

theorem seq_cmp_swap {β : Type} [LinearOrder β] :
    ∀ xs ys : List (Entry β),
      seq_cmp compare xs ys = (seq_cmp compare ys xs).swap
  | [], [] => rfl
  | [], _ :: _ => rfl
  | _ :: _, [] => rfl
  | e₁ :: xs, e₂ :: ys => by
    rw [seq_cmp, seq_cmp,
      show compare e₁.key e₂.key = (compare e₂.key e₁.key).swap from
        (Nat.compare_swap e₂.key e₁.key).symm]
    cases hc : compare e₂.key e₁.key with
    | lt => rfl
    | gt => rfl
    | eq =>
      rw [show compare e₁.val e₂.val = (compare e₂.val e₁.val).swap from
        (compare_val_swap e₂.val e₁.val).symm ▸ compare_val_swap e₁.val e₂.val]
      cases hv : compare e₂.val e₁.val with
      | lt => rfl
      | gt => rfl
      | eq => exact seq_cmp_swap xs ys

/-! ## The claims -/

/-- C1: Every tree reachable by any sequence of core operations
(`insert`, `insert_if_absent`, `update`, `insert_or_update`, `remove`,
`delete_min`, `delete_max`, `from_iter`) starting from the empty tree
satisfies all three structural invariants: the in-order traversal
yields strictly increasing keys (`bst_ok`), every node's cached size
equals `size left + size right + 1` (`size_ok`), and neither child's
size exceeds `balance_ratio` (canonically 3) times the other's unless
both subtrees have size at most 1 (`balance_ok`). -/
theorem reachable_trees_satisfy_invariants {t : Tree β} (h : Reachable t) : WF t :=
  (WF_iff_valid t).2 (reachable_valid h)

theorem reachable_trees_satisfy_invariants_witness :
    WF (insert (insert (new : Tree ℕ) 5 50) 3 30) :=
  reachable_trees_satisfy_invariants
    (Reachable.insert 3 30 (Reachable.insert 5 50 Reachable.new))

/-- C2: `insert(T, k, v)` returns a tree whose sorted key/payload
sequence is exactly T's sequence with `(k, v)` added — the payload at
`k` is replaced when `k` is already present, and a new entry is
spliced in at its key position otherwise (this is the list-level
`list_insert`).  The input tree `T` is never mutated: in this purely
functional model the operation builds a new tree, so T's own sorted
sequence is unchanged by construction. -/
theorem insert_sorted_sequence_spec (t : Tree β) (k : ℕ) (v : β) (h : WF t) :
    toList (insert t k v) = list_insert k v (fun _ => v) (toList t) :=
  toList_ins k v _ h.valid.ord

theorem insert_sorted_sequence_spec_witness :
    toList (insert (from_iter [⟨1, 10⟩, ⟨3, 30⟩] : Tree ℕ) 2 20) =
      list_insert 2 20 (fun _ => 20)
        (toList (from_iter [⟨1, 10⟩, ⟨3, 30⟩] : Tree ℕ)) :=
  insert_sorted_sequence_spec _ 2 20 (by decide)

/-- C3: Operations whose precondition is not met return `none` instead
of raising an exception: `insert_if_absent` on a present key, `update`
and `remove` on an absent key, and `delete_min`/`delete_max` on the
empty tree.  (The original handle stays valid and unchanged: the model
is purely functional, so the input tree is never modified.) -/
theorem failure_is_represented_not_thrown (t : Tree β) (k : ℕ) (v : β)
    (f : β → β) (h : WF t) :
    (contains_key t k = true → insert_if_absent t k v = none) ∧
    (contains_key t k = false → update t k f = none ∧ remove t k = none) ∧
    (is_empty t = true → delete_min t = none ∧ delete_max t = none) := by
  refine ⟨?_, ?_, ?_⟩
  · intro hck
    rw [insert_if_absent_eq, if_pos hck]
  · intro hck
    have hg : get t k = none := by
      rw [contains_key] at hck
      exact Option.not_isSome_iff_eq_none.1 (by simp [hck])
    constructor
    · rcases update_aux k f h.valid with ⟨hn, _⟩ | ⟨t', w, _, hget, _, _, _⟩
      · exact hn
      · rw [hget] at hg
        cases hg
    · rcases remove_aux k h.valid with ⟨hn, _⟩ | ⟨t', w, _, hget, _, _, _⟩
      · exact hn
      · rw [hget] at hg
        cases hg
  · intro he
    cases t with
    | tip => exact ⟨rfl, rfl⟩
    | node sz l k' v' r =>
      exfalso
      have hv := h.valid
      rw [toOrd_node] at hv
      have hsz := hv.sz.1
      rw [is_empty, len] at he
      simp only [size_node_eq, beq_iff_eq] at he
      omega

theorem failure_is_represented_not_thrown_witness :
    insert_if_absent (from_iter [⟨1, 10⟩] : Tree ℕ) 1 99 = none ∧
    update (new : Tree ℕ) 1 (fun v => v) = none ∧
    remove (new : Tree ℕ) 1 = none ∧
    delete_min (new : Tree ℕ) = none :=
  ⟨(failure_is_represented_not_thrown _ 1 99 (fun v => v) (by decide)).1 (by decide),
   ((failure_is_represented_not_thrown (new : Tree ℕ) 1 99 (fun v => v)
      (by decide)).2.1 (by decide)).1,
   ((failure_is_represented_not_thrown (new : Tree ℕ) 1 99 (fun v => v)
      (by decide)).2.1 (by decide)).2,
   ((failure_is_represented_not_thrown (new : Tree ℕ) 1 99 (fun v => v)
      (by decide)).2.2 (by decide)).1⟩

/-- C4: `get(insert(T, k, v), k) = some v`, and when `k` is absent
from T, `remove(insert(T, k, v), k)` succeeds and yields a tree whose
sorted sequence equals T's sorted sequence. -/
theorem insert_get_remove_roundtrip (t : Tree β) (k : ℕ) (v : β) (h : WF t) :
    get (insert t k v) k = some v ∧
    (get t k = none →
      ∃ t' w, remove (insert t k v) k = some (t', w) ∧ toList t' = toList t) := by
  have hv := h.valid
  have hv' : (toOrd (insert t k v)).Valid := (ins_aux k v _ hv trivial trivial).1
  have hlist : toList (insert t k v) = list_insert k v (fun _ => v) (toList t) :=
    toList_ins k v _ hv.ord
  have hget : get (insert t k v) k = some v := by
    refine (get_eq_some_iff k v hv'.ord).2 ?_
    rw [hlist]
    exact mem_list_insert_self k v (toList t)
  refine ⟨hget, ?_⟩
  intro hnone
  rcases remove_aux k hv' with ⟨hn, hg⟩ | ⟨t', w, heq, _, _, _, hfil⟩
  · rw [hget] at hg
    cases hg
  · refine ⟨t', w, heq, ?_⟩
    rw [hfil, hlist,
      filter_list_insert k v _ (toList t) ((get_eq_none_iff k hv.ord).1 hnone)]

theorem insert_get_remove_roundtrip_witness :
    get (insert (from_iter [⟨1, 10⟩, ⟨3, 30⟩] : Tree ℕ) 2 20) 2 = some 20 ∧
    ∃ t' w, remove (insert (from_iter [⟨1, 10⟩, ⟨3, 30⟩] : Tree ℕ) 2 20) 2
        = some (t', w) ∧
      toList t' = toList (from_iter [⟨1, 10⟩, ⟨3, 30⟩] : Tree ℕ) :=
  ⟨(insert_get_remove_roundtrip _ 2 20 (by decide)).1,
   (insert_get_remove_roundtrip _ 2 20 (by decide)).2 (by decide)⟩

/-- C5: `range(lo, hi)` yields exactly the entries whose keys satisfy
both bounds, in ascending order (the sorted sequence filtered by the
bounds), with `Unbounded` acting as infinity; `range(Unbounded,
Unbounded)` is full forward iteration; and on the set
`from_iter {1,2,3,4,5}`, `range(Included 2, Excluded 5)` yields
exactly the keys `[2, 3, 4]` in order. -/
theorem range_bounds_spec (t : Tree β) (lo hi : Bound ℕ) (h : WF t) :
    range t lo hi = (toList t).filter (fun e => lo_ok lo e.key && hi_ok hi e.key) ∧
    range t Bound.Unbounded Bound.Unbounded = toList t ∧
    (range (from_iter (([1, 2, 3, 4, 5] : List ℕ).map fun k => ⟨k, ()⟩) : Tree Unit)
        (Bound.Included 2) (Bound.Excluded 5)).map Entry.key = [2, 3, 4] :=
  ⟨range_eq_filter h.valid.ord lo hi, range_unbounded t, by decide⟩

theorem range_bounds_spec_witness :
    range (from_iter [⟨1, 10⟩, ⟨2, 20⟩, ⟨3, 30⟩] : Tree ℕ)
        (Bound.Included 2) Bound.Unbounded =
      (toList (from_iter [⟨1, 10⟩, ⟨2, 20⟩, ⟨3, 30⟩] : Tree ℕ)).filter
        (fun e => lo_ok (Bound.Included 2) e.key && hi_ok Bound.Unbounded e.key) :=
  (range_bounds_spec _ (Bound.Included 2) Bound.Unbounded (by decide)).1

/-- C6: The set-algebra iterators yield exactly the elements of the
corresponding mathematical set operations — keys in both; keys in
either (without duplicates, being strictly ascending); keys in A but
not B; keys in exactly one of A and B — each in strictly ascending
order. -/
theorem set_algebra_iterators_spec (a b : Tree β) (ha : WF a) (hb : WF b) :
    (∀ c, c ∈ intersection a b ↔ c ∈ keys a ∧ c ∈ keys b) ∧
    List.Chain' (· < ·) (intersection a b) ∧
    (∀ c, c ∈ union a b ↔ c ∈ keys a ∨ c ∈ keys b) ∧
    List.Chain' (· < ·) (union a b) ∧
    (∀ c, c ∈ difference a b ↔ c ∈ keys a ∧ c ∉ keys b) ∧
    List.Chain' (· < ·) (difference a b) ∧
    (∀ c, c ∈ symmetric_difference a b ↔
      (c ∈ keys a ∧ c ∉ keys b) ∨ (c ∈ keys b ∧ c ∉ keys a)) ∧
    List.Chain' (· < ·) (symmetric_difference a b) := by
  have pa := ha.keys_pairwise
  have pb := hb.keys_pairwise
  refine ⟨fun c => mem_merge_inter c _ _ pa pb, ?_,
    fun c => mem_merge_union c _ _, ?_,
    fun c => mem_merge_diff c _ _ pa pb, ?_,
    fun c => mem_merge_symm_diff c _ _ pa pb, ?_⟩
  · exact List.chain'_iff_pairwise.2 (List.Pairwise.sublist (merge_inter_sublist _ _) pa)
  · exact List.chain'_iff_pairwise.2 (merge_union_pairwise _ _ pa pb)
  · exact List.chain'_iff_pairwise.2 (List.Pairwise.sublist (merge_diff_sublist _ _) pa)
  · exact List.chain'_iff_pairwise.2 (merge_symm_diff_pairwise _ _ pa pb)

theorem set_algebra_iterators_spec_witness :
    ((2 : ℕ) ∈ intersection (from_iter [⟨1, ()⟩, ⟨2, ()⟩] : Tree Unit)
        (from_iter [⟨2, ()⟩, ⟨3, ()⟩]) ↔
      2 ∈ keys (from_iter [⟨1, ()⟩, ⟨2, ()⟩] : Tree Unit) ∧
      2 ∈ keys (from_iter [⟨2, ()⟩, ⟨3, ()⟩] : Tree Unit)) :=
  (set_algebra_iterators_spec _ _ (by decide) (by decide)).1 2

/-- C7: If `k` is present in T with payload `p`, `update(T, k, f)`
returns a new map identical to T except that `k`'s payload is `f p`
(the sorted sequence is mapped only at key `k`), and the result again
satisfies the invariants; if `k` is absent, `update` returns `none`
(and the original map, being a value in this purely functional model,
is unchanged). -/
theorem update_payload_spec (t : Tree β) (k : ℕ) (f : β → β) (h : WF t) :
    (∀ p, get t k = some p → ∃ t', update t k f = some t' ∧ WF t' ∧
      toList t' = (toList t).map fun e => if e.key = k then ⟨k, f p⟩ else e) ∧
    (get t k = none → update t k f = none) := by
  constructor
  · intro p hp
    rcases update_aux k f h.valid with ⟨hn, hg⟩ | ⟨t', w, heq, hget, hv, _, hmap⟩
    · rw [hp] at hg
      cases hg
    · rw [hp] at hget
      injection hget with hw
      subst hw
      exact ⟨t', heq, (WF_iff_valid t').2 hv, hmap⟩
  · intro hg
    rcases update_aux k f h.valid with ⟨hn, _⟩ | ⟨t', w, _, hget, _, _, _⟩
    · exact hn
    · rw [hget] at hg
      cases hg

theorem update_payload_spec_witness :
    ∃ t', update (from_iter [⟨1, 10⟩] : Tree ℕ) 1 (fun v => v + 5) = some t' ∧
      WF t' ∧
      toList t' = (toList (from_iter [⟨1, 10⟩] : Tree ℕ)).map
        fun e => if e.key = 1 then ⟨1, (fun v => v + 5) 10⟩ else e :=
  (update_payload_spec _ 1 (fun v => v + 5) (by decide)).1 10 (by decide)

/-- C8: Equality and total ordering of trees are determined purely by
their sorted key/payload sequences, regardless of internal shape:
`eq` holds exactly when the sequences are equal, and `cmp` is the
lexicographic comparison of the sequences (entries ordered by key,
then payload — `entry_lex`). -/
theorem eq_cmp_by_sorted_sequences [LinearOrder β] [DecidableEq β] (t₁ t₂ : Tree β) :
    (eq t₁ t₂ = true ↔ toList t₁ = toList t₂) ∧
    (cmp t₁ t₂ = Ordering.eq ↔ toList t₁ = toList t₂) ∧
    (cmp t₁ t₂ = Ordering.lt ↔ List.Lex entry_lex (toList t₁) (toList t₂)) ∧
    (cmp t₁ t₂ = Ordering.gt ↔ List.Lex entry_lex (toList t₂) (toList t₁)) := by
  refine ⟨seq_eq_iff _ _, seq_cmp_eq_iff _ _, seq_cmp_lt_iff _ _, ?_⟩
  have ho : ∀ o : Ordering, (o.swap = Ordering.gt ↔ o = Ordering.lt) := by
    intro o
    cases o <;> simp [Ordering.swap]
  rw [cmp, seq_cmp_swap, ho]
  exact seq_cmp_lt_iff _ _

theorem eq_cmp_by_sorted_sequences_witness :
    eq (from_iter [⟨1, 10⟩] : Tree ℕ) (insert new 1 10) = true ↔
      toList (from_iter [⟨1, 10⟩] : Tree ℕ) = toList (insert new 1 10) :=
  (eq_cmp_by_sorted_sequences (from_iter [⟨1, 10⟩] : Tree ℕ) (insert new 1 10)).1

/-- C9: On every non-empty tree, `delete_min` (resp. `delete_max`)
returns the entry with the smallest (resp. largest) key together with
a tree whose sorted sequence is the original minus that entry; and the
spec scenario holds: inserting keys 5,3,8,1,4,7,9 with payload
key * 10, iteration yields the seven sorted pairs, `delete_min`
returns (1, 10), and the remaining tree iterates without it. -/
theorem delete_min_max_spec (t : Tree β) (h : WF t) (hne : t ≠ tip) :
    (∃ t' k v, delete_min t = some (t', k, v) ∧
      toList t = ⟨k, v⟩ :: toList t' ∧ ∀ e ∈ toList t, k ≤ e.key) ∧
    (∃ t' k v, delete_max t = some (t', k, v) ∧
      toList t = toList t' ++ [⟨k, v⟩] ∧ ∀ e ∈ toList t, e.key ≤ k) ∧
    toList scenario_map =
      [⟨1, 10⟩, ⟨3, 30⟩, ⟨4, 40⟩, ⟨5, 50⟩, ⟨7, 70⟩, ⟨8, 80⟩, ⟨9, 90⟩] ∧
    (delete_min scenario_map).map (fun p => (toList p.1, p.2.1, p.2.2)) =
      some ([⟨3, 30⟩, ⟨4, 40⟩, ⟨5, 50⟩, ⟨7, 70⟩, ⟨8, 80⟩, ⟨9, 90⟩], 1, 10) := by
  refine ⟨?_, ?_, by decide, by decide⟩
  · obtain ⟨t', mk, mv, heq, _, _, _, hl⟩ := delete_min_aux h.valid hne
    refine ⟨t', mk, mv, heq, hl, ?_⟩
    intro e he
    have hp := h.keys_pairwise
    rw [keys, hl] at hp
    rw [hl] at he
    rcases List.mem_cons.1 he with rfl | he
    · exact Nat.le_refl _
    · simp only [List.map_cons, List.pairwise_cons] at hp
      have := hp.1 e.key (List.mem_map_of_mem Entry.key he)
      simp only [Entry.key] at this
      omega
  · obtain ⟨t', mk, mv, heq, _, _, _, hl⟩ := delete_max_aux h.valid hne
    refine ⟨t', mk, mv, heq, hl, ?_⟩
    intro e he
    have hp := h.keys_pairwise
    rw [keys, hl] at hp
    rw [hl] at he
    simp only [List.map_append, List.map_cons, List.map_nil, List.pairwise_append] at hp
    rcases List.mem_append.1 he with he | he
    · have := hp.2.2 e.key (List.mem_map_of_mem Entry.key he) mk (by simp)
      omega
    · rcases List.mem_singleton.1 he with rfl
      exact Nat.le_refl _

theorem delete_min_max_spec_witness :
    ∃ t' k v, delete_min scenario_map = some (t', k, v) ∧
      toList scenario_map = ⟨k, v⟩ :: toList t' ∧
      ∀ e ∈ toList scenario_map, k ≤ e.key :=
  (delete_min_max_spec scenario_map (by decide) (by decide)).1

/-- C10: `TreeMap`'s indexing operator returns the stored value
directly when the key is present (the panic branch, modelled as
`Except.error`, is unreachable under that precondition), and panics
exactly when the key is absent — the only lookup that does not
represent failure as an absence value. -/
theorem index_panics_only_on_absent (t : Tree β) (k : ℕ) :
    (∀ v, get t k = some v → index t k = Except.ok v) ∧
    (contains_key t k = true → ∃ v, get t k = some v ∧ index t k = Except.ok v) ∧
    (contains_key t k = false → index t k = Except.error ()) := by
  refine ⟨?_, ?_, ?_⟩
  · intro v hv
    rw [index, hv]
  · intro hck
    rw [contains_key] at hck
    cases hg : get t k with
    | none =>
      rw [hg] at hck
      cases hck
    | some v => exact ⟨v, rfl, by rw [index, hg]⟩
  · intro hck
    rw [contains_key] at hck
    cases hg : get t k with
    | none => rw [index, hg]
    | some v =>
      rw [hg] at hck
      cases hck

theorem index_panics_only_on_absent_witness :
    index (from_iter [⟨1, 10⟩] : Tree ℕ) 1 = Except.ok 10 ∧
    index (from_iter [⟨1, 10⟩] : Tree ℕ) 2 = Except.error () :=
  ⟨(index_panics_only_on_absent (from_iter [⟨1, 10⟩] : Tree ℕ) 1).1 10 (by decide),
   (index_panics_only_on_absent (from_iter [⟨1, 10⟩] : Tree ℕ) 2).2.2 (by decide)⟩

end Tree

end ImmutableMap
